import Mathlib

/-!
# rwc: report when changed

A shallow embedding of `rwc.c` and a verification of its behaviour.

* C strings are lists of bytes (`Nat`), the bytes before the terminating NUL.
* The two `tsearch(3)` trees (`root`, the Watch Set, and `wds`, the reverse
  lookup from watch descriptor to directory) are lists without two elements
  that compare equal; `tsearch` and `tfind` are the libc contract over the
  comparison function the source passes (`order`, `wdorder`).
* The kernel and the file system are parameters: the result of `lstat`, of
  `inotify_add_watch`, of `open`, of the k-th `ioctl(1, FIONREAD)`, and the
  list of results of the successive `read`/`kevent` calls. So is the `dirname`
  of the libc; `Rwc.dirname` is the one of glibc.
* `stdout` is the list of strings written, one per `printf` + `fflush`.
* Both platform variants are embedded: the inotify one in `Rwc`, the kqueue one
  (the `#else` branch) in `Rwc.Kqueue`.
-/

namespace Rwc

/-! ## C strings and libc -/

/-- The bytes of a C string, terminating NUL excluded. -/
abbrev CStr := List Nat

/-- A string literal of the source as a C string. -/
def str (s : String) : CStr := s.toList.map Char.toNat

/-- The libc `strcmp`: zero exactly on equal strings, otherwise the sign of the
first difference (the end of a string compares as byte 0, below every byte). -/
def strcmp : CStr → CStr → Int
  | [], [] => 0
  | [], _ :: _ => -1
  | _ :: _, [] => 1
  | a :: as, b :: bs => if a = b then strcmp as bs else if a < b then -1 else 1

/-- The comparison function of the Watch Set tree (source lines 44-48). -/
def order (a b : CStr) : Int := strcmp a b

/-- The libc `tfind`: the element of the tree that compares equal to `key`. -/
def tfind {α : Type} (cmp : α → α → Int) (key : α) (rootp : List α) : Option α :=
  rootp.find? (fun e => decide (cmp key e = 0))

/-- The libc `tsearch`: like `tfind`, and `key` is inserted when nothing
compares equal to it. -/
def tsearch {α : Type} (cmp : α → α → Int) (key : α) (rootp : List α) : List α :=
  match tfind cmp key rootp with
  | some _ => rootp
  | none => rootp ++ [key]

/-- The byte `'/'`. -/
def slash : Nat := 47

/-- The libc `memrchr` on the first `n` bytes of `s`: the index of the last
byte equal to `c`. -/
def memrchr (s : List Nat) (c : Nat) : Nat → Option Nat
  | 0 => none
  | n + 1 => if s.getD n 0 = c then some n else memrchr s c n

/-- The loop `for (runp = p; runp != path; --runp) if (runp[-1] != '/') break;`
of the glibc `dirname`: the index where the run of slashes that ends right
before index `p` starts. -/
def slashRun (path : List Nat) : Nat → Nat
  | 0 => 0
  | r + 1 => if path.getD r 0 ≠ slash then r + 1 else slashRun path r

/-- The `dirname` of glibc (`misc/dirname.c`): trailing slashes
are skipped, then the last component and the slashes before it are cut off;
`"."` when no slash is left, `"/"` when the cut reaches the start of the path,
and `"//"` when the path starts with exactly two slashes there. -/
def dirname (path : CStr) : CStr :=
  let found := memrchr path slash path.length
  let last_slash :=
    match found with
    | some j =>
      if j ≠ 0 ∧ j + 1 = path.length then
        let runp := slashRun path j
        if runp ≠ 0 then memrchr path slash runp else some j
      else some j
    | none => none
  match last_slash with
  | some j =>
    let runp := slashRun path j
    if runp = 0 then
      if j = 1 then path.take 2 else path.take 1
    else path.take runp
  | none => str "."

/-- The libc `snprintf(buf, size, ...)` on the formatted string `s`: at most
`size - 1` bytes are stored. -/
def snprintf (size : Nat) (s : CStr) : CStr := s.take (size - 1)

/-! ## Constants of the system headers -/

/-- From `<limits.h>` on Linux. -/
def PATH_MAX : Nat := 4096
/-- From `<sys/inotify.h>`. -/
def IN_CLOSE_WRITE : Nat := 0x8
/-- From `<sys/inotify.h>`. -/
def IN_MOVED_TO : Nat := 0x80
/-- From `<sys/inotify.h>`. -/
def IN_DELETE : Nat := 0x200
/-- From `<sys/inotify.h>`. -/
def IN_DELETE_SELF : Nat := 0x400
/-- From `<sys/inotify.h>`. -/
def IN_IGNORED : Nat := 0x8000

/-! ## Program state (inotify variant) -/

/-- An entry of the reverse lookup (source lines 51-54). -/
structure wdmap where
  wd : Int
  dir : CStr
deriving DecidableEq, Repr

/-- The comparison function of the reverse lookup (source lines 58-70). -/
def wdorder (ia ib : wdmap) : Int :=
  if ia.wd = ib.wd then 0
  else if ia.wd < ib.wd then -1
  else 1

/-- What the source writes to stderr. -/
inductive Diag where
  | inotify_add_watch (dir : CStr)
  | read_error
  | open_failed (file : CStr)
  | kevent_failed (file : CStr)
  | ev_error
deriving DecidableEq, Repr

/-- The globals of the source and the two output streams. Bytes of `ibuf` past
the end of the list are the zero bytes of the static array. -/
structure State where
  root : List CStr := []
  wds : List wdmap := []
  dflag : Nat := 0
  pflag : Nat := 0
  input_delim : Nat := 10
  ibuf : List Nat := []
  stdout : List CStr := []
  stderr : List Diag := []
  probes : Nat := 0
deriving DecidableEq, Repr

/-- The file system, the kernel and the libc, as `add` sees them. -/
structure Kernel where
  /-- `lstat(file, &st) >= 0 && S_ISDIR(st.st_mode)` -/
  isdir : CStr → Bool
  /-- The result of `inotify_add_watch(ifd, dir, mask)`, negative on failure. -/
  inotify_add_watch : CStr → Nat → Int
  /-- The string the `dirname` of the libc in use returns. The libcs differ on
  paths that start with two slashes, so the function is a parameter; the
  concrete kernels below take the glibc one. -/
  dirname : CStr → CStr

/-- The option switch of `main` (source lines 227-235); `none` is `exit(2)`. -/
def getopt_case (c : Char) (s : State) : Option State :=
  if c = '0' then some { s with input_delim := 0 }
  else if c = 'd' then some { s with dflag := IN_DELETE ||| IN_DELETE_SELF }
  else if c = 'p' then some { s with pflag := s.pflag + 1 }
  else none

/-- The directory `add` hands to the kernel for `file` (source lines 78-84):
`file` itself when it is a directory, otherwise its `dirname`; a path that
cannot be statted counts as a regular file. `dirname` is the libc function. -/
def watchTarget (k : Kernel) (file : CStr) : CStr :=
  if !k.isdir file then k.dirname file else file

/-- The inotify `add` (source lines 72-96). The Watch Set gets the copy of
`file` taken before `dirname` runs; the reverse lookup gets the pair of the
identifier and the directory string, and nothing when the identifier is there
already. Strings are kept by value. -/
def add (k : Kernel) (s : State) (file : CStr) : State :=
  let s1 := { s with root := tsearch order file s.root }
  let dir := watchTarget k file
  let wd := k.inotify_add_watch dir (IN_MOVED_TO ||| IN_CLOSE_WRITE ||| s.dflag)
  if wd < 0 then
    { s1 with stderr := s1.stderr ++ [Diag.inotify_add_watch dir] }
  else
    { s1 with wds := tsearch wdorder ⟨wd, dir⟩ s1.wds }

/-- The registration phase: `add` on each path, left to right. -/
def addAll (k : Kernel) (s : State) (files : List CStr) : State :=
  files.foldl (add k) s

/-! ## Raw events -/

/-- What the loop body reads through `ev`: the header fields and the C string at
`ev->name`. -/
structure inotify_event where
  wd : Int
  mask : Nat
  cookie : Nat
  len : Nat
  name : CStr
deriving DecidableEq, Repr

/-- The `sizeof (struct inotify_event)`: four 32-bit fields. -/
def sizeof_ev : Nat := 16

/-- The 32-bit little-endian word at offset `i`. -/
def le32 (b : List Nat) (i : Nat) : Nat :=
  b.getD i 0 + 256 * b.getD (i + 1) 0 + 65536 * b.getD (i + 2) 0
    + 16777216 * b.getD (i + 3) 0

/-- A 32-bit word read as `int`. -/
def toInt32 (n : Nat) : Int :=
  if n < 2147483648 then (n : Int) else (n : Int) - 4294967296

/-- The C string that starts at offset `i`. -/
def cstrAt (b : List Nat) (i : Nat) : CStr :=
  (b.drop i).takeWhile (fun c => c != 0)

/-- The event at `ibuf + i` (source line 113). -/
def evAt (ibuf : List Nat) (i : Nat) : inotify_event :=
  { wd := toInt32 (le32 ibuf i)
    mask := le32 ibuf (i + 4)
    cookie := le32 ibuf (i + 8)
    len := le32 ibuf (i + 12)
    name := cstrAt ibuf (i + sizeof_ev) }

/-! ## The event loop (inotify variant) -/

/-- How one pass through the loop body ends. -/
inductive Ctl where
  | cont
  | brk
deriving DecidableEq, Repr

/-- The outbound channel: `FIONREAD k` is what the k-th `ioctl(1, FIONREAD, &n)`
of the process stores in `n`. -/
structure World where
  FIONREAD : Nat → Int

/-- The resolution of an event (source lines 115-132): `none` when the event is
skipped, otherwise the directory and the candidate path. -/
def resolve (s : State) (ev : inotify_event) : Option (CStr × CStr) :=
  if ev.mask &&& IN_IGNORED ≠ 0 then none
  else
    match tfind wdorder ⟨ev.wd, []⟩ s.wds with
    | none => none
    | some result =>
      let dir := result.dir
      if strcmp dir (str ".") ≠ 0 then
        some (dir, snprintf PATH_MAX (dir ++ str "/" ++ ev.name))
      else
        some (dir, ev.name)

/-- The membership test of source lines 134-135. -/
def matched (s : State) (dir name : CStr) : Bool :=
  (tfind order name s.root).isSome || (tfind order dir s.root).isSome

/-- The string of the `printf` of source lines 142-145. -/
def record (s : State) (ev : inotify_event) (name : CStr) : CStr :=
  (if ev.mask &&& IN_DELETE ≠ 0 then str "- " else str "") ++ name ++ [s.input_delim]

/-- The body of the `for` loop (source lines 113-147). -/
def body (w : World) (s : State) (ev : inotify_event) : State × Ctl :=
  match resolve s ev with
  | none => (s, Ctl.cont)
  | some (dir, name) =>
    if matched s dir name then
      if s.pflag ≠ 0 then
        let n := w.FIONREAD s.probes
        let s1 := { s with probes := s.probes + 1 }
        if n > 0 then (s1, Ctl.brk)
        else ({ s1 with stdout := s1.stdout ++ [record s1 ev name] }, Ctl.cont)
      else ({ s with stdout := s.stdout ++ [record s ev name] }, Ctl.cont)
    else (s, Ctl.cont)

/-- The `for` loop of source lines 112-148 from offset `i`, at most `fuel`
passes; `none` when the passes run out before the loop ends. -/
def forLoop (w : World) : Nat → State → Int → Nat → Option State
  | 0, s, len, i => if (i : Int) < len then none else some s
  | fuel + 1, s, len, i =>
    if (i : Int) < len then
      let ev := evAt s.ibuf i
      match body w s ev with
      | (s1, Ctl.brk) => some s1
      | (s1, Ctl.cont) => forLoop w fuel s1 len (i + (sizeof_ev + ev.len))
    else some s

/-- One result of `read(ifd, ibuf, sizeof ibuf)`: the return value and the bytes
stored at the start of `ibuf`. -/
structure ReadResult where
  ret : Int
  data : List Nat
deriving DecidableEq, Repr

/-- How the process stands when the supplied kernel results are used up. -/
inductive Outcome (σ : Type) where
  | exited (status : Int) (s : σ)
  | blocked (s : σ)
deriving DecidableEq, Repr

/-- The state an outcome carries. -/
def Outcome.state {σ : Type} : Outcome σ → σ
  | Outcome.exited _ s => s
  | Outcome.blocked s => s

/-- The effect of a `read` on `ibuf`. -/
def store (ibuf : List Nat) (r : ReadResult) : List Nat :=
  let d := r.data.take r.ret.toNat
  d ++ ibuf.drop d.length

/-- The inotify `run` (source lines 98-150), on the successive results of
`read`. Each pass of the `for` loop advances by at least `sizeof_ev`, so `len`
passes are enough. -/
def run (w : World) : List ReadResult → State → Option (Outcome State)
  | [], s => some (Outcome.blocked s)
  | r :: rs, s =>
    let s1 := { s with ibuf := store s.ibuf r }
    if r.ret ≤ 0 then
      some (Outcome.exited 1 { s1 with stderr := s1.stderr ++ [Diag.read_error] })
    else
      match forLoop w r.ret.toNat s1 r.ret 0 with
      | none => none
      | some s2 => run w rs s2

/-- The loop of `run` over the events a batch holds. -/
def forEvents (w : World) : State → List inotify_event → State
  | s, [] => s
  | s, ev :: evs =>
    match body w s ev with
    | (s1, Ctl.brk) => s1
    | (s1, Ctl.cont) => forEvents w s1 evs

/-- The offsets the header of the `for` loop visits (source line 112), each with
the event read there, when no pass leaves the loop early; at most `fuel`
passes. -/
def walk : Nat → List Nat → Int → Nat → List (Nat × inotify_event)
  | 0, _, _, _ => []
  | fuel + 1, ibuf, len, i =>
    if (i : Int) < len then
      let ev := evAt ibuf i
      (i, ev) :: walk fuel ibuf len (i + (sizeof_ev + ev.len))
    else []

/-! ## Batches as the kernel lays them out -/

/-- A raw event in the buffer: three 32-bit words and the bytes of the name
field; the fourth word of the header is the length of the name field. -/
structure RawEvent where
  wd : Nat
  mask : Nat
  cookie : Nat
  name : List Nat
deriving DecidableEq, Repr

/-- The four bytes of a 32-bit word, little-endian. -/
def word (v : Nat) : List Nat :=
  [v % 256, v / 256 % 256, v / 65536 % 256, v / 16777216 % 256]

/-- The bytes of a raw event: the header, then the name field. -/
def RawEvent.bytes (e : RawEvent) : List Nat :=
  word e.wd ++ word e.mask ++ word e.cookie ++ word e.name.length ++ e.name

/-- Every header word fits 32 bits. -/
def RawEvent.WellFormed (e : RawEvent) : Prop :=
  e.wd < 4294967296 ∧ e.mask < 4294967296 ∧ e.cookie < 4294967296
    ∧ e.name.length < 4294967296

/-- The batch buffer: the concatenation of the raw events. -/
def batch : List RawEvent → List Nat
  | [] => []
  | e :: es => e.bytes ++ batch es

/-- The raw events of a batch as the loop body reads them, each with its offset;
`off` is the offset of the first one and `rest` the bytes of `ibuf` behind the
batch. The name is the C string at the name field, which ends at the first NUL
at or behind it. -/
def seen (off : Nat) : List RawEvent → List Nat → List (Nat × inotify_event)
  | [], _ => []
  | e :: es, rest =>
    (off, { wd := toInt32 e.wd, mask := e.mask, cookie := e.cookie,
            len := e.name.length,
            name := (e.name ++ (batch es ++ rest)).takeWhile (fun c => c != 0) })
      :: seen (off + (sizeof_ev + e.name.length)) es rest

instance (e : RawEvent) : Decidable e.WellFormed := by
  unfold RawEvent.WellFormed
  infer_instance

/-- The events the loop of `run` visits in the batch that `read` returned. -/
def batchEvents (ibuf : List Nat) (r : ReadResult) : List inotify_event :=
  (walk r.ret.toNat (store ibuf r) r.ret 0).map Prod.snd

/-- The state of `run` when it has gone through the batch that `read` returned
and is about to `read` again. -/
def afterBatch (w : World) (s : State) (r : ReadResult) : State :=
  forEvents w { s with ibuf := store s.ibuf r } (batchEvents s.ibuf r)

/-! ## The kqueue variant (the `#else` branch) -/

namespace Kqueue

/-- The source's own definition (line 18). -/
def IN_DELETE : Nat := 1
/-- The source's own definition (line 19). -/
def IN_DELETE_SELF : Nat := 1
/-- From `<sys/event.h>`. -/
def EVFILT_VNODE : Int := -4
/-- From `<sys/event.h>`. -/
def EV_ADD : Nat := 0x1
/-- From `<sys/event.h>`. -/
def EV_ENABLE : Nat := 0x4
/-- From `<sys/event.h>`. -/
def EV_CLEAR : Nat := 0x20
/-- From `<sys/event.h>`. -/
def EV_ERROR : Nat := 0x4000
/-- From `<sys/event.h>`. -/
def NOTE_DELETE : Nat := 0x1
/-- From `<sys/event.h>`. -/
def NOTE_WRITE : Nat := 0x2
/-- From `<sys/event.h>`. -/
def NOTE_ATTRIB : Nat := 0x8
/-- From `<sys/event.h>`. -/
def NOTE_RENAME : Nat := 0x20

/-- The `struct kevent`; `udata` is the path string the source attaches. -/
structure kevent where
  ident : Int
  filter : Int
  flags : Nat
  fflags : Nat
  data : Int
  udata : CStr
deriving DecidableEq, Repr

/-- The globals of the source, the changes the kernel queue has accepted, and
the two output streams. -/
structure State where
  root : List CStr := []
  dflag : Nat := 0
  pflag : Nat := 0
  input_delim : Nat := 10
  kq : List kevent := []
  stdout : List CStr := []
  stderr : List Diag := []
  probes : Nat := 0
deriving DecidableEq, Repr

/-- The file system and the kernel, as the kqueue `add` sees them. -/
structure Kernel where
  /-- The result of `open(file, O_RDONLY | O_NONBLOCK)`, negative on failure. -/
  open_file : CStr → Int
  /-- The result of `kevent(ifd, &ev, 1, 0, 0, 0)`, negative on failure. -/
  kevent_change : kevent → Int

/-- The kqueue `add` (source lines 152-185). The `lstat` of line 167 has no
effect. The `tsearch` of line 183 stands inside the `else` block. -/
def add (k : Kernel) (s : State) (file : CStr) : State :=
  if (tfind order file s.root).isSome then s
  else
    let wd := k.open_file file
    if wd < 0 then
      { s with stderr := s.stderr ++ [Diag.open_failed file] }
    else
      let ev : kevent :=
        { ident := wd, filter := EVFILT_VNODE,
          flags := EV_ADD ||| EV_ENABLE ||| EV_CLEAR,
          fflags := NOTE_WRITE ||| NOTE_ATTRIB ||| NOTE_RENAME
            ||| (if s.dflag ≠ 0 then NOTE_DELETE else 0),
          data := 0, udata := file }
      let s1 :=
        if k.kevent_change ev < 0 then
          { s with stderr := s.stderr ++ [Diag.kevent_failed file] }
        else
          { s with kq := s.kq ++ [ev] }
      { s1 with root := tsearch order file s1.root }

/-- How one pass through the body of the kqueue loop ends. -/
inductive Step where
  | cont
  | brk
  | exit (status : Int)
deriving DecidableEq, Repr

/-- The string of the `printf` of source lines 209-212. -/
def record (s : State) (ev : kevent) : CStr :=
  (if ev.fflags &&& NOTE_DELETE ≠ 0 then str "- " else str "") ++ ev.udata
    ++ [s.input_delim]

/-- The body of the `for` loop of the kqueue `run` (source lines 197-213). -/
def body (w : World) (s : State) (ev : kevent) : State × Step :=
  if ev.flags &&& EV_ERROR ≠ 0 then
    ({ s with stderr := s.stderr ++ [Diag.ev_error] }, Step.exit 111)
  else if s.pflag ≠ 0 then
    let n := w.FIONREAD s.probes
    let s1 := { s with probes := s.probes + 1 }
    if n > 0 then (s1, Step.brk)
    else ({ s1 with stdout := s1.stdout ++ [record s1 ev] }, Step.cont)
  else ({ s with stdout := s.stdout ++ [record s ev] }, Step.cont)

/-- The `for` loop of the kqueue `run` over the events it looks at; the second
component is the exit status when an event ends the process. -/
def forLoop (w : World) : State → List kevent → State × Option Int
  | s, [] => (s, none)
  | s, ev :: evs =>
    match body w s ev with
    | (s1, Step.exit status) => (s1, some status)
    | (s1, Step.brk) => (s1, none)
    | (s1, Step.cont) => forLoop w s1 evs

/-- One result of `kevent(ifd, 0, 0, eventlist, 5, 0)`: the return value and the
events stored at the start of `eventlist`. -/
structure Fetch where
  ret : Int
  eventlist : List kevent
deriving DecidableEq, Repr

/-- The kqueue `run` (source lines 187-216), on the successive results of
`kevent`. The loop looks at `eventlist[i]` for `i < len`. -/
def run (w : World) : List Fetch → State → Outcome State
  | [], s => Outcome.blocked s
  | f :: fs, s =>
    match forLoop w s (f.eventlist.take f.ret.toNat) with
    | (s1, some status) => Outcome.exited status s1
    | (s1, none) => run w fs s1

end Kqueue

/-- The candidate path as the specification words it: the child name alone
under `"."`, otherwise directory, separator and child name. -/
def candidate (dir x : CStr) : CStr :=
  if dir = str "." then x else dir ++ str "/" ++ x

/-- The records of the events of a batch that pass the membership test of
`run`, in batch order. -/
def matchedRecords (s : State) (evs : List inotify_event) : List CStr :=
  evs.filterMap (fun ev =>
    match resolve s ev with
    | some (dir, name) => if matched s dir name then some (record s ev name) else none
    | none => none)

/-- What pipe mode lets through, as the specification words it: of the records
of the matched events, numbered from `n0` by the probe each one gets, those
before the first one whose probe reports unread bytes. -/
def pipeRecords (w : World) (n0 : Nat) (recs : List CStr) : List CStr :=
  ((recs.enumFrom n0).takeWhile (fun jr => decide (w.FIONREAD jr.1 ≤ 0))).map Prod.snd

/-- The probes a batch takes in pipe mode: one per record written, and one more
for the event that was held back, if any. -/
def probesUsed (w : World) (n0 : Nat) (recs : List CStr) : Nat :=
  min ((pipeRecords w n0 recs).length + 1) recs.length

/-! ## Concrete kernels, channels and inputs -/

/-- A kernel where every path is a directory and every watch gets identifier 1. -/
def kDir : Kernel :=
  { isdir := fun _ => true, inotify_add_watch := fun _ _ => 1, dirname := dirname }

/-- A kernel where no path is a directory and every watch gets identifier 1. -/
def kFile : Kernel :=
  { isdir := fun _ => false, inotify_add_watch := fun _ _ => 1, dirname := dirname }

/-- A kernel where `d` and `./d` are the one existing directory, every other
path is not a directory, and every watch gets identifier 1. -/
def kAlias : Kernel :=
  { isdir := fun p => p == str "d" || p == str "./d", inotify_add_watch := fun _ _ => 1,
    dirname := dirname }

/-- A kernel where every path is a directory and the identifier of a watch is
the sum of the bytes of its path. -/
def kSum : Kernel :=
  { isdir := fun _ => true, inotify_add_watch := fun p _ => (p.sum : Int),
    dirname := dirname }

/-- A kernel where `/` is the one directory and every watch gets identifier 1
(the kernel resolves `//` and `/` to the same directory). -/
def kRoot : Kernel :=
  { isdir := fun p => p == str "/", inotify_add_watch := fun _ _ => 1,
    dirname := dirname }

/-- An outbound channel that is always drained. -/
def wEmpty : World := { FIONREAD := fun _ => 0 }

/-- A batch of two raw events of watch 1: the kernel's notice that the watch is
gone (`IN_IGNORED`, no name), then a close-after-write of child `f`, the name
field NUL-padded to 16 bytes. -/
def evsIgnoredThenWrite : List RawEvent :=
  [ { wd := 1, mask := 0x8000, cookie := 0, name := [] },
    { wd := 1, mask := 0x8, cookie := 0,
      name := [102, 0, 0, 0, 0, 0, 0, 0, 0, 0, 0, 0, 0, 0, 0, 0] } ]

/-- The state after `rwc d` on an existing directory `d`. -/
def stDir : State := add kDir {} (str "d")

/-- The batch the kernel delivers when watch 1 is gone: one event, mask
`IN_IGNORED`, no name. -/
def readIgnored : ReadResult :=
  { ret := 16, data := [1, 0, 0, 0, 0, 128, 0, 0, 0, 0, 0, 0, 0, 0, 0, 0] }

/-- A kqueue kernel where every file opens as descriptor 3 and every change is
accepted. -/
def kOpen : Kqueue.Kernel := { open_file := fun _ => 3, kevent_change := fun _ => 0 }

/-- The kqueue state after `rwc a` on a file that opens. -/
def kstA : Kqueue.State :=
  Kqueue.add kOpen {} (str "a")

/-- A write event of the kqueue registration of `a`. -/
def kevA : Kqueue.kevent :=
  { ident := 3, filter := Kqueue.EVFILT_VNODE, flags := Kqueue.EV_ADD ||| Kqueue.EV_CLEAR,
    fflags := Kqueue.NOTE_WRITE, data := 0, udata := str "a" }

/-- An outbound channel that holds 3 unread bytes at the second probe and is
drained at every other one. -/
def wBusy : World := { FIONREAD := fun k => if k = 1 then 3 else 0 }

/-- The state after `rwc -p d` on an existing directory `d`. -/
def stPipe : State := add kDir { pflag := 1 } (str "d")

/-- A batch of three close-after-write events of watch 1, for the children `a`,
`b` and `c`, each name field NUL-padded to 16 bytes. -/
def evsABC : List RawEvent :=
  [ { wd := 1, mask := 0x8, cookie := 0,
      name := [97, 0, 0, 0, 0, 0, 0, 0, 0, 0, 0, 0, 0, 0, 0, 0] },
    { wd := 1, mask := 0x8, cookie := 0,
      name := [98, 0, 0, 0, 0, 0, 0, 0, 0, 0, 0, 0, 0, 0, 0, 0] },
    { wd := 1, mask := 0x8, cookie := 0,
      name := [99, 0, 0, 0, 0, 0, 0, 0, 0, 0, 0, 0, 0, 0, 0, 0] } ]

/-- The `read` that returns the batch `evsABC`. -/
def readABC : ReadResult := { ret := ((batch evsABC).length : Int), data := batch evsABC }

/-- The kqueue state after `rwc -p a` on a file that opens. -/
def kstPipe : Kqueue.State := { kstA with pflag := 1 }

/-- A `kevent` that returns two write events of the registration of `a`. -/
def fetchTwo : Kqueue.Fetch := { ret := 2, eventlist := [kevA, kevA] }

/-- A close-after-write event on watch 1 for the child `name`. -/
def evWrite (name : CStr) : inotify_event :=
  { wd := 1, mask := IN_CLOSE_WRITE, cookie := 0, len := 16, name := name }

/-- The state after `rwc d/` on an existing directory `d`. -/
def stDirSlash : State := add kDir {} (str "d/")

/-- The state after `rwc ./f g` in a directory where neither is a directory. -/
def stDotFiles : State := addAll kFile {} [str "./f", str "g"]

/-- The state after `rwc -d d` on an existing directory `d`. -/
def stDeleteDir : State :=
  add kDir { dflag := IN_DELETE ||| IN_DELETE_SELF } (str "d")

/-- The batch the kernel delivers when the watched directory of watch 1 is
itself deleted: one event, mask `IN_DELETE_SELF`, no name. -/
def readDeleteSelf : ReadResult :=
  { ret := 16, data := [1, 0, 0, 0, 0, 4, 0, 0, 0, 0, 0, 0, 0, 0, 0, 0] }

/-! ## Predicates used in the statements -/

/-- The reverse lookup holds watch `wd` under no other spelling than `d`. -/
def OnlySpelling (wd : Int) (d : CStr) (t : List wdmap) : Prop :=
  ∀ m ∈ t, m.wd = wd → m.dir = d

/-- The invariant of the two `tsearch` trees: no path twice in the Watch Set, no
identifier twice in the reverse lookup. -/
def TreeInv (s : State) : Prop :=
  s.root.Nodup ∧ (s.wds.map wdmap.wd).Nodup

/-- How many times the path `p` is in the Watch Set. -/
def occurrences (p : CStr) (l : List CStr) : Nat :=
  l.countP (fun x => decide (x = p))

/-! ## Lemmas on the libc model -/

theorem strcmp_eq_zero_iff (a b : CStr) : strcmp a b = 0 ↔ a = b := by
  induction a generalizing b with
  | nil => cases b <;> simp [strcmp]
  | cons x xs ih =>
    cases b with
    | nil => simp [strcmp]
    | cons y ys =>
      simp only [strcmp]
      by_cases h : x = y
      · simp [h, ih]
      · simp only [h, if_false, List.cons.injEq, false_and, iff_false]
        split_ifs <;> decide

theorem tfind_order_isSome (x : CStr) (root : List CStr) :
    (tfind order x root).isSome = true ↔ x ∈ root := by
  simp [tfind, order, strcmp_eq_zero_iff, List.find?_isSome]

theorem matched_iff (s : State) (dir name : CStr) :
    matched s dir name = true ↔ name ∈ s.root ∨ dir ∈ s.root := by
  simp [matched, tfind_order_isSome]

theorem snprintf_of_lt (l : CStr) (h : l.length < PATH_MAX) :
    snprintf PATH_MAX l = l := by
  unfold snprintf
  apply List.take_of_length_le
  unfold PATH_MAX at *
  omega

theorem resolve_of_find (s : State) (ev : inotify_event) (m : wdmap)
    (hign : ev.mask &&& IN_IGNORED = 0)
    (hfind : tfind wdorder ⟨ev.wd, []⟩ s.wds = some m) :
    resolve s ev = some (m.dir,
      if m.dir = str "." then ev.name
      else snprintf PATH_MAX (m.dir ++ str "/" ++ ev.name)) := by
  unfold resolve
  simp only [hign, hfind, ne_eq, not_true_eq_false, if_false, strcmp_eq_zero_iff]
  split_ifs <;> simp_all

theorem record_probes (s : State) (n : Nat) (ev : inotify_event) (name : CStr) :
    record { s with probes := n } ev name = record s ev name := rfl

/-- The model of `dirname` at paths with and without leading double slashes. -/
theorem dirname_examples :
    dirname (str "//x") = str "//" ∧ dirname (str "//") = str "//"
    ∧ dirname (str "//a//") = str "//" ∧ dirname (str "///x") = str "/"
    ∧ dirname (str "/x") = str "/" ∧ dirname (str "/") = str "/"
    ∧ dirname (str "") = str "." ∧ dirname (str "a") = str "."
    ∧ dirname (str "a/") = str "." ∧ dirname (str "a/b") = str "a"
    ∧ dirname (str "a//b/") = str "a" ∧ dirname (str "d//f") = str "d"
    ∧ dirname (str "./f") = str "." ∧ dirname (str "/usr/lib/") = str "/usr" := by
  decide

/-- After `rwc //x /` under glibc the reverse lookup holds watch 1 as `//`, the
candidate for child `f` is `///f`, and nothing is written. -/
theorem double_slash_example :
    (addAll kRoot {} [str "//x", str "/"]).wds = [⟨1, str "//"⟩]
    ∧ resolve (addAll kRoot {} [str "//x", str "/"]) (evWrite (str "f"))
        = some (str "//", str "///f")
    ∧ (body wEmpty (addAll kRoot {} [str "//x", str "/"]) (evWrite (str "f"))).1.stdout
        = [] := by
  decide

/-! ## The matcher -/

/-- C1, as stated, fails: after `rwc d/` the event for child `f` is written
although neither the candidate `d//f` nor its dirname `d` is in the Watch Set. -/
theorem c1_dirname_counterexample :
    resolve stDirSlash (evWrite (str "f")) = some (str "d/", str "d//f")
    ∧ (body wEmpty stDirSlash (evWrite (str "f"))).1.stdout
        = stDirSlash.stdout ++ [str "d//f\n"]
    ∧ ¬ (str "d//f" ∈ stDirSlash.root ∨ dirname (str "d//f") ∈ stDirSlash.root) := by
  decide

/-- C1 (amended): for an event that resolves to directory `dir` and candidate
`cand`, with pipe mode off or the probe reporting no unread bytes, `run` writes
the record of the event iff `cand` is in the Watch Set or `dir`, the string the
reverse lookup holds, is; otherwise it writes nothing. -/
theorem c1_report_iff (w : World) (s : State) (ev : inotify_event) (dir cand : CStr)
    (hres : resolve s ev = some (dir, cand))
    (hpipe : s.pflag = 0 ∨ w.FIONREAD s.probes ≤ 0) :
    ((body w s ev).1.stdout = s.stdout ++ [record s ev cand]
        ↔ (cand ∈ s.root ∨ dir ∈ s.root))
    ∧ (¬ (cand ∈ s.root ∨ dir ∈ s.root) → (body w s ev).1.stdout = s.stdout) := by
  have hm := matched_iff s dir cand
  unfold body
  simp only [hres]
  by_cases hmt : matched s dir cand = true
  · have hin := hm.mp hmt
    rcases hpipe with hp | hp
    · simp [hmt, hp, hin]
    · have hp2 : ¬ (w.FIONREAD s.probes > 0) := by omega
      by_cases hpf : s.pflag = 0
      · simp [hmt, hpf, hin]
      · simp [hmt, hpf, hp2, hin, record_probes]
  · have hnin : ¬ (cand ∈ s.root ∨ dir ∈ s.root) := fun h => hmt (hm.mpr h)
    simp [hmt, hnin]

/-- Witness of C1 (amended) after `rwc d/`. -/
theorem c1_report_iff_witness :
    resolve stDirSlash (evWrite (str "f")) = some (str "d/", str "d//f")
    ∧ (stDirSlash.pflag = 0 ∨ wEmpty.FIONREAD stDirSlash.probes ≤ 0)
    ∧ (((body wEmpty stDirSlash (evWrite (str "f"))).1.stdout
          = stDirSlash.stdout ++ [record stDirSlash (evWrite (str "f")) (str "d//f")]
        ↔ (str "d//f" ∈ stDirSlash.root ∨ str "d/" ∈ stDirSlash.root))
      ∧ (¬ (str "d//f" ∈ stDirSlash.root ∨ str "d/" ∈ stDirSlash.root) →
          (body wEmpty stDirSlash (evWrite (str "f"))).1.stdout = stDirSlash.stdout)) :=
  ⟨by decide, by decide,
    c1_report_iff wEmpty stDirSlash (evWrite (str "f")) (str "d/") (str "d//f")
      (by decide) (by decide)⟩

/-- C3, as stated, fails for `d = "."`: after `rwc ./f g` the Watch Set holds
`./f` and neither `.` nor `./g`, and the event of watch `.` for child `g` is
written, as `g`. -/
theorem c3_dot_counterexample :
    str "g" ≠ str "f"
    ∧ str "." ++ str "/" ++ str "f" ∈ stDotFiles.root
    ∧ str "." ∉ stDotFiles.root
    ∧ str "." ++ str "/" ++ str "g" ∉ stDotFiles.root
    ∧ tfind wdorder ⟨(evWrite (str "g")).wd, []⟩ stDotFiles.wds = some ⟨1, str "."⟩
    ∧ (body wEmpty stDotFiles (evWrite (str "g"))).1.stdout
        = stDotFiles.stdout ++ [str "g\n"] := by
  decide

/-- C3 (amended): when the Watch Set holds `d/f` but neither `d` nor the
candidate path of `g` (`g` alone when `d` is `"."`, otherwise `d/g`, the joined
path being shorter than `PATH_MAX`), an event of `d`'s watch that names `g`,
`g ≠ f`, makes `run` write nothing. -/
theorem c3_sibling_silent (w : World) (s : State) (ev : inotify_event)
    (m : wdmap) (d f g : CStr)
    (hgf : g ≠ f)
    (hf : d ++ str "/" ++ f ∈ s.root)
    (hd : d ∉ s.root)
    (hg : candidate d g ∉ s.root)
    (hlen : d ≠ str "." → (d ++ str "/" ++ g).length < PATH_MAX)
    (hwatch : tfind wdorder ⟨ev.wd, []⟩ s.wds = some m)
    (hdir : m.dir = d)
    (hname : ev.name = g) :
    (body w s ev).1.stdout = s.stdout ∧ (body w s ev).2 = Ctl.cont := by
  by_cases hign : ev.mask &&& IN_IGNORED = 0
  · have hres := resolve_of_find s ev m hign hwatch
    have hcand : (if m.dir = str "." then ev.name
        else snprintf PATH_MAX (m.dir ++ str "/" ++ ev.name)) = candidate d g := by
      subst hdir hname
      unfold candidate
      split_ifs with h
      · rfl
      · exact snprintf_of_lt _ (hlen h)
    rw [hcand, hdir] at hres
    have hm : matched s d (candidate d g) = false := by
      rw [Bool.eq_false_iff]
      intro h
      rcases (matched_iff s d (candidate d g)).mp h with h1 | h1
      · exact hg h1
      · exact hd h1
    unfold body
    simp [hres, hm]
  · unfold body resolve
    simp [hign]

/-- Witness of C3 (amended): Watch Set `d/f`, event for `g` on the watch of `d`. -/
theorem c3_sibling_silent_witness :
    (body wEmpty (add kFile {} (str "d/f")) (evWrite (str "g"))).1.stdout
        = (add kFile {} (str "d/f")).stdout
    ∧ (body wEmpty (add kFile {} (str "d/f")) (evWrite (str "g"))).2 = Ctl.cont :=
  c3_sibling_silent wEmpty (add kFile {} (str "d/f")) (evWrite (str "g"))
    ⟨1, str "d"⟩ (str "d") (str "f") (str "g")
    (by decide) (by decide) (by decide) (by decide) (fun _ => by decide)
    (by decide) rfl rfl

/-! ## The emitter -/

/-- C5, at the failing input: with `-d`, the deletion of the watched directory
`d` itself (`IN_DELETE_SELF`, one of the two flags `-d` arms) is written as
`d/` and a newline, without the `"- "` prefix; the flags `-d` arms are
`IN_DELETE` and `IN_DELETE_SELF`, and the prefix test looks at `IN_DELETE` only. -/
theorem c5_delete_self_unprefixed :
    (getopt_case 'd' {}).map (fun s => s.dflag) = some (IN_DELETE ||| IN_DELETE_SELF)
    ∧ (evAt readDeleteSelf.data 0).mask = IN_DELETE_SELF
    ∧ (run wEmpty [readDeleteSelf] stDeleteDir).map (fun o => o.state.stdout)
        = some [str "d/\n"]
    ∧ str "d/\n" ≠ str "- " ++ str "d/\n" := by
  decide

/-- C6: a matched event without a deletion flag, resolved to directory `dir` and
child `x` with the joined path shorter than `PATH_MAX`, makes `run` write the
candidate path and one delimiter byte, and nothing else (nothing at all when
pipe mode holds the event back); the candidate is `x` under `"."` and
`dir/x` otherwise; the delimiter is a newline unless `-0` made it NUL. -/
theorem c6_record_bytes (w : World) (s : State) (ev : inotify_event)
    (m : wdmap) (dir x : CStr)
    (hign : ev.mask &&& IN_IGNORED = 0)
    (hdel : ev.mask &&& IN_DELETE = 0)
    (_hself : ev.mask &&& IN_DELETE_SELF = 0)
    (hwatch : tfind wdorder ⟨ev.wd, []⟩ s.wds = some m)
    (hdir : m.dir = dir)
    (hname : ev.name = x)
    (hlen : (dir ++ str "/" ++ x).length < PATH_MAX)
    (hmatch : candidate dir x ∈ s.root ∨ dir ∈ s.root) :
    (body w s ev).1.stdout
        = s.stdout ++ (if s.pflag ≠ 0 ∧ 0 < w.FIONREAD s.probes then []
                       else [candidate dir x ++ [s.input_delim]])
    ∧ (dir = str "." → candidate dir x = x)
    ∧ (dir ≠ str "." → candidate dir x = dir ++ str "/" ++ x)
    ∧ ({} : State).input_delim = 10
    ∧ (getopt_case '0' s).map (fun t => t.input_delim) = some 0 := by
  refine ⟨?_, ?_, ?_, rfl, rfl⟩
  · have hres := resolve_of_find s ev m hign hwatch
    have hcand : (if m.dir = str "." then ev.name
        else snprintf PATH_MAX (m.dir ++ str "/" ++ ev.name)) = candidate dir x := by
      subst hdir hname
      unfold candidate
      split_ifs with h
      · rfl
      · exact snprintf_of_lt _ hlen
    rw [hcand, hdir] at hres
    have hm : matched s dir (candidate dir x) = true :=
      (matched_iff s dir (candidate dir x)).mpr hmatch
    have hrec : ∀ t : State, record t ev (candidate dir x)
        = candidate dir x ++ [t.input_delim] := by
      intro t
      simp [record, hdel, str]
    unfold body
    simp only [hres, hm, if_true]
    by_cases hp : s.pflag = 0
    · simp [hp, hrec]
    · by_cases hn : 0 < w.FIONREAD s.probes
      · simp [hp, hn]
      · simp [hp, hn, hrec]
  · intro h
    simp [candidate, h]
  · intro h
    simp [candidate, h]

/-- Witness of C6: after `rwc ./f g`, the event for `g` on the watch of `"."` is
written as `g` and a newline. -/
theorem c6_record_bytes_witness :
    (body wEmpty stDotFiles (evWrite (str "g"))).1.stdout
        = stDotFiles.stdout ++
          (if stDotFiles.pflag ≠ 0 ∧ 0 < wEmpty.FIONREAD stDotFiles.probes then []
           else [candidate (str ".") (str "g") ++ [stDotFiles.input_delim]])
    ∧ (str "." = str "." → candidate (str ".") (str "g") = str "g")
    ∧ (str "." ≠ str "." →
        candidate (str ".") (str "g") = str "." ++ str "/" ++ str "g")
    ∧ ({} : State).input_delim = 10
    ∧ (getopt_case '0' stDotFiles).map (fun t => t.input_delim) = some 0 :=
  c6_record_bytes wEmpty stDotFiles (evWrite (str "g")) ⟨1, str "."⟩
    (str ".") (str "g")
    (by decide) (by decide) (by decide) (by decide) rfl rfl (by decide) (by decide)

/-! ## Registration -/

theorem wdorder_eq_zero_iff (a b : wdmap) : wdorder a b = 0 ↔ a.wd = b.wd := by
  unfold wdorder
  split_ifs <;> simp_all

theorem tfind_wdorder (key : wdmap) (t : List wdmap) :
    tfind wdorder key t = t.find? (fun e => decide (key.wd = e.wd)) := by
  unfold tfind
  congr 1
  funext e
  simp [wdorder_eq_zero_iff]

theorem add_dflag (k : Kernel) (s : State) (p : CStr) : (add k s p).dflag = s.dflag := by
  unfold add
  dsimp only
  split_ifs <;> rfl

theorem add_root (k : Kernel) (s : State) (p : CStr) :
    (add k s p).root = tsearch order p s.root := by
  unfold add
  dsimp only
  split_ifs <;> rfl

theorem add_wds (k : Kernel) (s : State) (p : CStr) :
    (add k s p).wds =
      if k.inotify_add_watch (watchTarget k p)
          (IN_MOVED_TO ||| IN_CLOSE_WRITE ||| s.dflag) < 0 then s.wds
      else tsearch wdorder
        ⟨k.inotify_add_watch (watchTarget k p)
          (IN_MOVED_TO ||| IN_CLOSE_WRITE ||| s.dflag), watchTarget k p⟩ s.wds := by
  unfold add watchTarget
  dsimp only
  split_ifs <;> rfl

theorem addAll_dflag (k : Kernel) (s : State) (ps : List CStr) :
    (addAll k s ps).dflag = s.dflag := by
  induction ps generalizing s with
  | nil => rfl
  | cons p ps ih =>
    show (addAll k (add k s p) ps).dflag = s.dflag
    rw [ih, add_dflag]

theorem addAll_append (k : Kernel) (s : State) (ps qs : List CStr) :
    addAll k s (ps ++ qs) = addAll k (addAll k s ps) qs := by
  simp [addAll, List.foldl_append]

theorem addAll_cons (k : Kernel) (s : State) (p : CStr) (ps : List CStr) :
    addAll k s (p :: ps) = addAll k (add k s p) ps := rfl

theorem mem_tsearch_order (x p : CStr) (t : List CStr) :
    x ∈ tsearch order p t ↔ x ∈ t ∨ x = p := by
  unfold tsearch
  cases h : tfind order p t with
  | none => simp
  | some y =>
    have hp : p ∈ t := (tfind_order_isSome p t).mp (by simp [h])
    constructor
    · intro hx
      exact Or.inl hx
    · rintro (hx | hx)
      · exact hx
      · exact hx ▸ hp

theorem mem_root_add (k : Kernel) (s : State) (p x : CStr) :
    x ∈ (add k s p).root ↔ x ∈ s.root ∨ x = p := by
  rw [add_root, mem_tsearch_order]

theorem mem_root_addAll (k : Kernel) (s : State) (ps : List CStr) (x : CStr)
    (h : x ∈ s.root) : x ∈ (addAll k s ps).root := by
  induction ps generalizing s with
  | nil => exact h
  | cons p ps ih =>
    rw [addAll_cons]
    exact ih _ ((mem_root_add k s p x).mpr (Or.inl h))

theorem mem_tsearch_wdorder (x key : wdmap) (t : List wdmap)
    (h : x ∈ tsearch wdorder key t) :
    x ∈ t ∨ (x = key ∧ ∀ m ∈ t, m.wd ≠ key.wd) := by
  unfold tsearch at h
  cases hf : tfind wdorder key t with
  | none =>
    rw [hf] at h
    rw [tfind_wdorder] at hf
    simp only [List.mem_append, List.mem_singleton] at h
    rcases h with h | h
    · exact Or.inl h
    · refine Or.inr ⟨h, ?_⟩
      intro m hm heq
      have := List.find?_eq_none.mp hf m hm
      simp [heq] at this
  | some y =>
    rw [hf] at h
    exact Or.inl h

theorem subset_tsearch {α : Type} (cmp : α → α → Int) (key : α) (t : List α) :
    t ⊆ tsearch cmp key t := by
  unfold tsearch
  cases tfind cmp key t <;> simp

theorem exists_wd_tsearch (key : wdmap) (t : List wdmap) :
    ∃ m ∈ tsearch wdorder key t, m.wd = key.wd := by
  unfold tsearch
  cases hf : tfind wdorder key t with
  | none => exact ⟨key, by simp, rfl⟩
  | some y =>
    rw [tfind_wdorder] at hf
    have h1 := List.mem_of_find?_eq_some hf
    have h2 := List.find?_some hf
    exact ⟨y, h1, (by simpa using h2 : key.wd = y.wd).symm⟩

/-- Once watch `wd` is in the reverse lookup under the spelling `d` only, every
later `add` leaves it so. -/
theorem add_keeps_spelling (k : Kernel) (s : State) (p : CStr) (wd : Int) (d : CStr)
    (hex : ∃ m ∈ s.wds, m.wd = wd) (honly : OnlySpelling wd d s.wds) :
    (∃ m ∈ (add k s p).wds, m.wd = wd) ∧ OnlySpelling wd d (add k s p).wds := by
  rw [add_wds]
  split_ifs with hneg
  · exact ⟨hex, honly⟩
  · obtain ⟨m0, hm0, hwd0⟩ := hex
    refine ⟨⟨m0, subset_tsearch _ _ _ hm0, hwd0⟩, ?_⟩
    intro m hm hmwd
    rcases mem_tsearch_wdorder _ _ _ hm with h | ⟨h, hno⟩
    · exact honly m h hmwd
    · exfalso
      apply hno m0 hm0
      rw [hwd0, ← hmwd, h]

theorem addAll_keeps_spelling (k : Kernel) (s : State) (ps : List CStr) (wd : Int)
    (d : CStr) (hex : ∃ m ∈ s.wds, m.wd = wd) (honly : OnlySpelling wd d s.wds) :
    (∃ m ∈ (addAll k s ps).wds, m.wd = wd) ∧ OnlySpelling wd d (addAll k s ps).wds := by
  induction ps generalizing s with
  | nil => exact ⟨hex, honly⟩
  | cons p ps ih =>
    rw [addAll_cons]
    obtain ⟨h1, h2⟩ := add_keeps_spelling k s p wd d hex honly
    exact ih _ h1 h2

/-- Adding paths whose watch is another one, or is `wd` under the spelling `d`,
keeps `wd` from any other spelling. -/
theorem addAll_only_spelling (k : Kernel) (s : State) (ps : List CStr) (wd : Int)
    (d : CStr) (honly : OnlySpelling wd d s.wds)
    (hps : ∀ p ∈ ps, k.inotify_add_watch (watchTarget k p)
        (IN_MOVED_TO ||| IN_CLOSE_WRITE ||| s.dflag) = wd → watchTarget k p = d) :
    OnlySpelling wd d (addAll k s ps).wds := by
  induction ps generalizing s with
  | nil => exact honly
  | cons p ps ih =>
    rw [addAll_cons]
    apply ih
    · rw [add_wds]
      split_ifs with hneg
      · exact honly
      · intro m hm hmwd
        rcases mem_tsearch_wdorder _ _ _ hm with h | ⟨h, _⟩
        · exact honly m h hmwd
        · rw [h]
          apply hps p (List.mem_cons_self _ _)
          rw [← hmwd, h]
    · intro q hq
      rw [add_dflag]
      exact hps q (List.mem_cons_of_mem _ hq)

theorem tfind_of_only_spelling (t : List wdmap) (wd : Int) (d : CStr)
    (hex : ∃ m ∈ t, m.wd = wd) (honly : OnlySpelling wd d t) :
    ∃ m, tfind wdorder ⟨wd, []⟩ t = some m ∧ m.dir = d := by
  rw [tfind_wdorder]
  cases hf : t.find? (fun e => decide ((⟨wd, []⟩ : wdmap).wd = e.wd)) with
  | none =>
    obtain ⟨m, hm, hwd⟩ := hex
    have := List.find?_eq_none.mp hf m hm
    simp [hwd] at this
  | some y =>
    have h1 := List.mem_of_find?_eq_some hf
    have h2 := List.find?_some hf
    exact ⟨y, rfl, honly y h1 (by simpa using h2 : wd = y.wd).symm⟩

theorem body_stdout_of_matched (w : World) (s : State) (ev : inotify_event)
    (dir cand : CStr) (hres : resolve s ev = some (dir, cand))
    (hin : cand ∈ s.root ∨ dir ∈ s.root)
    (hpipe : s.pflag = 0 ∨ w.FIONREAD s.probes ≤ 0) :
    (body w s ev).1.stdout = s.stdout ++ [record s ev cand] := by
  have hmt := (matched_iff s dir cand).mpr hin
  unfold body
  simp only [hres]
  rcases hpipe with hp | hp
  · simp [hmt, hp]
  · have hp2 : ¬ (w.FIONREAD s.probes > 0) := by omega
    by_cases hpf : s.pflag = 0
    · simp [hmt, hpf]
    · simp [hmt, hpf, hp2, record_probes]

/-- C2, as stated, fails: after `rwc ./d/x d`, where `d` is an existing directory
and the kernel gives `./d` and `d` the one identifier 1, the reverse lookup holds
watch 1 as `./d`, and the event of watch 1 for child `f` writes nothing. -/
theorem c2_alias_counterexample :
    kAlias.isdir (str "d") = true
    ∧ str "d" ≠ str "."
    ∧ kAlias.inotify_add_watch (str "d") (IN_MOVED_TO ||| IN_CLOSE_WRITE ||| 0) = 1
    ∧ (evWrite (str "f")).wd = 1
    ∧ str "d" ∈ (addAll kAlias {} [str "./d/x", str "d"]).root
    ∧ (addAll kAlias {} [str "./d/x", str "d"]).wds = [⟨1, str "./d"⟩]
    ∧ (body wEmpty (addAll kAlias {} [str "./d/x", str "d"]) (evWrite (str "f"))).1.stdout
        = [] := by
  decide

/-- C2 (amended): let the `add` calls `pre`, `d`, `post` start from an empty
reverse lookup, `d` being an existing directory other than `"."` whose watch the
kernel accepts, and let no path of `pre` have handed the kernel a differently
spelled directory that got `d`'s identifier. Then an event of that identifier
that is not `IN_IGNORED` and names `f`, with `d/f` shorter than `PATH_MAX` and
pipe mode off or the probe reporting no unread bytes, makes `run` write the
record whose path is exactly `d/f`. The directory a path of `pre` hands to the
kernel is what `add` computes, with the `dirname` of the libc in use, whatever
that function returns. -/
theorem c2_directory_child (k : Kernel) (w : World) (s0 : State)
    (pre post : List CStr) (d f : CStr) (ev : inotify_event)
    (hinit : s0.wds = [])
    (hisdir : k.isdir d = true)
    (hdot : d ≠ str ".")
    (hwd : 0 ≤ k.inotify_add_watch d (IN_MOVED_TO ||| IN_CLOSE_WRITE ||| s0.dflag))
    (hpre : ∀ p ∈ pre,
      k.inotify_add_watch (watchTarget k p) (IN_MOVED_TO ||| IN_CLOSE_WRITE ||| s0.dflag)
        = k.inotify_add_watch d (IN_MOVED_TO ||| IN_CLOSE_WRITE ||| s0.dflag) →
      watchTarget k p = d)
    (hev : ev.wd = k.inotify_add_watch d (IN_MOVED_TO ||| IN_CLOSE_WRITE ||| s0.dflag))
    (hign : ev.mask &&& IN_IGNORED = 0)
    (hname : ev.name = f)
    (hlen : (d ++ str "/" ++ f).length < PATH_MAX)
    (hpipe : (addAll k s0 (pre ++ d :: post)).pflag = 0
      ∨ w.FIONREAD (addAll k s0 (pre ++ d :: post)).probes ≤ 0) :
    (body w (addAll k s0 (pre ++ d :: post)) ev).1.stdout
      = (addAll k s0 (pre ++ d :: post)).stdout
        ++ [record (addAll k s0 (pre ++ d :: post)) ev (d ++ str "/" ++ f)] := by
  have htarget : watchTarget k d = d := by simp [watchTarget, hisdir]
  have h1 : OnlySpelling ev.wd d (addAll k s0 pre).wds := by
    apply addAll_only_spelling
    · intro m hm
      rw [hinit] at hm
      cases hm
    · intro p hp
      rw [hev]
      exact hpre p hp
  have h2 : (∃ m ∈ (add k (addAll k s0 pre) d).wds, m.wd = ev.wd)
      ∧ OnlySpelling ev.wd d (add k (addAll k s0 pre) d).wds := by
    rw [add_wds, addAll_dflag, htarget, ← hev]
    have hnn : ¬ ev.wd < 0 := by rw [hev]; omega
    rw [if_neg hnn]
    refine ⟨exists_wd_tsearch _ _, ?_⟩
    intro m hm hmwd
    rcases mem_tsearch_wdorder _ _ _ hm with h | ⟨h, _⟩
    · exact h1 m h hmwd
    · rw [h]
  have h3 := addAll_keeps_spelling k _ post ev.wd d h2.1 h2.2
  have hS : addAll k s0 (pre ++ d :: post)
      = addAll k (add k (addAll k s0 pre) d) post := by
    rw [addAll_append, addAll_cons]
  rw [hS] at hpipe ⊢
  obtain ⟨m, hfind, hmdir⟩ := tfind_of_only_spelling _ ev.wd d h3.1 h3.2
  have hres := resolve_of_find _ ev m hign hfind
  rw [hmdir, if_neg hdot, hname, snprintf_of_lt _ hlen] at hres
  apply body_stdout_of_matched w _ ev d _ hres _ hpipe
  right
  apply mem_root_addAll
  exact (mem_root_add k _ d d).mpr (Or.inr rfl)

/-- Witness of C2 (amended): `rwc a d b` on three directories with three
identifiers, then the event of `d`'s watch for child `f`. -/
theorem c2_directory_child_witness :
    (body wEmpty (addAll kSum {} ([str "a"] ++ str "d" :: [str "b"]))
        ⟨100, IN_CLOSE_WRITE, 0, 16, str "f"⟩).1.stdout
      = (addAll kSum {} ([str "a"] ++ str "d" :: [str "b"])).stdout
        ++ [record (addAll kSum {} ([str "a"] ++ str "d" :: [str "b"]))
              ⟨100, IN_CLOSE_WRITE, 0, 16, str "f"⟩ (str "d" ++ str "/" ++ str "f")] :=
  c2_directory_child kSum wEmpty {} [str "a"] [str "b"] (str "d") (str "f")
    ⟨100, IN_CLOSE_WRITE, 0, 16, str "f"⟩
    rfl (by decide) (by decide) (by decide) (by decide) (by decide) (by decide) rfl
    (by decide) (by decide)

/-! ## The decoding loop -/

/-- The loop body changes `stdout` and `probes` only. -/
theorem body_frame (w : World) (s : State) (ev : inotify_event) :
    (body w s ev).1.root = s.root ∧ (body w s ev).1.wds = s.wds
    ∧ (body w s ev).1.dflag = s.dflag ∧ (body w s ev).1.pflag = s.pflag
    ∧ (body w s ev).1.input_delim = s.input_delim ∧ (body w s ev).1.ibuf = s.ibuf
    ∧ (body w s ev).1.stderr = s.stderr := by
  unfold body
  cases resolve s ev with
  | none => simp
  | some p =>
    obtain ⟨dir, name⟩ := p
    dsimp only
    split_ifs <;> simp

theorem body_ibuf (w : World) (s : State) (ev : inotify_event) :
    (body w s ev).1.ibuf = s.ibuf :=
  (body_frame w s ev).2.2.2.2.2.1

/-- With `len - i` passes at hand the loop ends, and it is the loop over the
events that `walk` lists. -/
theorem forLoop_eq_forEvents (w : World) (fuel : Nat) (s : State) (len : Int) (i : Nat)
    (hfuel : len.toNat - i ≤ fuel) :
    forLoop w fuel s len i
      = some (forEvents w s ((walk fuel s.ibuf len i).map Prod.snd)) := by
  induction fuel generalizing s i with
  | zero =>
    have : ¬ ((i : Int) < len) := by omega
    simp [forLoop, walk, forEvents, this]
  | succ fuel ih =>
    unfold forLoop walk
    by_cases hlt : (i : Int) < len
    · simp only [hlt, if_true, List.map_cons, forEvents]
      have hib := body_ibuf w s (evAt s.ibuf i)
      rcases hb : body w s (evAt s.ibuf i) with ⟨s1, c⟩
      rw [hb] at hib
      cases c with
      | brk => rfl
      | cont =>
        simp only
        rw [ih s1 _ (by unfold sizeof_ev; omega), hib]
    · simp [hlt, forEvents]

theorem getD_append_length (pre l : List Nat) (j : Nat) :
    (pre ++ l).getD (pre.length + j) 0 = l.getD j 0 := by
  simp [List.getD, List.getElem?_append_right]

theorem le32_append (pre l : List Nat) (j : Nat) :
    le32 (pre ++ l) (pre.length + j) = le32 l j := by
  unfold le32
  simp only [Nat.add_assoc, getD_append_length]

theorem evAt_bytes (pre tail : List Nat) (e : RawEvent) (hwf : e.WellFormed) :
    evAt (pre ++ (e.bytes ++ tail)) pre.length
      = { wd := toInt32 e.wd, mask := e.mask, cookie := e.cookie,
          len := e.name.length,
          name := (e.name ++ tail).takeWhile (fun c => c != 0) } := by
  obtain ⟨h1, h2, h3, h4⟩ := hwf
  unfold evAt
  have e0 : le32 (pre ++ (e.bytes ++ tail)) pre.length = e.wd := by
    have := le32_append pre (e.bytes ++ tail) 0
    rw [Nat.add_zero] at this
    rw [this]
    simp [le32, RawEvent.bytes, word]
    omega
  have e4 : le32 (pre ++ (e.bytes ++ tail)) (pre.length + 4) = e.mask := by
    rw [le32_append]
    simp [le32, RawEvent.bytes, word]
    omega
  have e8 : le32 (pre ++ (e.bytes ++ tail)) (pre.length + 8) = e.cookie := by
    rw [le32_append]
    simp [le32, RawEvent.bytes, word]
    omega
  have e12 : le32 (pre ++ (e.bytes ++ tail)) (pre.length + 12) = e.name.length := by
    rw [le32_append]
    simp [le32, RawEvent.bytes, word]
    omega
  have en : cstrAt (pre ++ (e.bytes ++ tail)) (pre.length + sizeof_ev)
      = (e.name ++ tail).takeWhile (fun c => c != 0) := by
    unfold cstrAt
    congr 1
    rw [List.drop_append]
    simp [RawEvent.bytes, word, sizeof_ev]
  rw [e0, e4, e8, e12, en]

theorem bytes_length (e : RawEvent) : e.bytes.length = sizeof_ev + e.name.length := by
  simp [RawEvent.bytes, word, sizeof_ev]
  omega

theorem walk_batch (evs : List RawEvent) (pre rest : List Nat) (fuel : Nat)
    (hwf : ∀ e ∈ evs, e.WellFormed) (hfuel : (batch evs).length ≤ fuel) :
    walk fuel (pre ++ (batch evs ++ rest)) ((pre.length + (batch evs).length : Nat) : Int)
        pre.length
      = seen pre.length evs rest := by
  induction evs generalizing pre fuel with
  | nil =>
    cases fuel <;> simp [walk, seen, batch]
  | cons e es ih =>
    have hlen : (batch (e :: es)).length
        = sizeof_ev + e.name.length + (batch es).length := by
      simp [batch, bytes_length]
    cases fuel with
    | zero =>
      rw [hlen] at hfuel
      unfold sizeof_ev at hfuel
      omega
    | succ fuel =>
      have hbuf : pre ++ (batch (e :: es) ++ rest)
          = pre ++ (e.bytes ++ (batch es ++ rest)) := by
        simp [batch]
      have hlt : ((pre.length : Nat) : Int)
          < ((pre.length + (batch (e :: es)).length : Nat) : Int) := by
        rw [hlen]
        unfold sizeof_ev
        omega
      unfold walk
      rw [if_pos hlt]
      simp only [seen]
      have hev := evAt_bytes pre (batch es ++ rest) e (hwf e (List.mem_cons_self _ _))
      rw [hbuf, hev]
      congr 1
      have hbuf2 : pre ++ (e.bytes ++ (batch es ++ rest))
          = (pre ++ e.bytes) ++ (batch es ++ rest) := by
        simp
      have hoff : pre.length + (sizeof_ev + e.name.length) = (pre ++ e.bytes).length := by
        simp [bytes_length]
      have hlen2 : pre.length + (batch (e :: es)).length
          = (pre ++ e.bytes).length + (batch es).length := by
        rw [hlen, ← hoff]
        omega
      rw [hbuf2, hlen2]
      simp only [hoff]
      apply ih
      · intro x hx
        exact hwf x (List.mem_cons_of_mem _ hx)
      · rw [hlen] at hfuel
        unfold sizeof_ev at hfuel
        omega

theorem seen_length (off : Nat) (evs : List RawEvent) (rest : List Nat) :
    (seen off evs rest).length = evs.length := by
  induction evs generalizing off with
  | nil => rfl
  | cons e es ih => simp [seen, ih]

theorem run_cons_pos (w : World) (r : ReadResult) (rs : List ReadResult) (s : State)
    (h : 0 < r.ret) :
    run w (r :: rs) s
      = run w rs (forEvents w { s with ibuf := store s.ibuf r }
          ((walk r.ret.toNat (store s.ibuf r) r.ret 0).map Prod.snd)) := by
  have hn : ¬ r.ret ≤ 0 := by omega
  simp only [run, hn, if_false]
  rw [forLoop_eq_forEvents w _ _ _ _ (by omega)]

theorem run_cons_nonpos (w : World) (r : ReadResult) (rs : List ReadResult) (s : State)
    (h : r.ret ≤ 0) :
    run w (r :: rs) s
      = some (Outcome.exited 1
          { s with ibuf := store s.ibuf r, stderr := s.stderr ++ [Diag.read_error] }) := by
  simp [run, h]

theorem store_batch (ibuf : List Nat) (evs : List RawEvent) :
    store ibuf { ret := ((batch evs).length : Int), data := batch evs }
      = batch evs ++ ibuf.drop (batch evs).length := by
  simp [store]

/-- C10: when `read` returns a buffer that is the concatenation of well-formed
raw events, at least one, the `for` loop of `run` ends within the passes `run`
allows, the offsets it visits are those of the events, one pass each and in
buffer order, each offset the one before plus header size plus name length,
and `run` goes on with the next `read`. A pass that skips its event advances
like any other; only the `break` of pipe mode, inside `forEvents`, ends the
loop early. -/
theorem c10_decoding_loop (w : World) (s : State) (evs : List RawEvent)
    (rs : List ReadResult)
    (hwf : ∀ e ∈ evs, e.WellFormed) (hne : evs ≠ []) :
    walk (batch evs).length (batch evs ++ s.ibuf.drop (batch evs).length)
        ((batch evs).length : Int) 0
      = seen 0 evs (s.ibuf.drop (batch evs).length)
    ∧ (seen 0 evs (s.ibuf.drop (batch evs).length)).length = evs.length
    ∧ forLoop w (batch evs).length
        { s with ibuf := batch evs ++ s.ibuf.drop (batch evs).length }
        ((batch evs).length : Int) 0
      = some (forEvents w { s with ibuf := batch evs ++ s.ibuf.drop (batch evs).length }
          ((seen 0 evs (s.ibuf.drop (batch evs).length)).map Prod.snd))
    ∧ run w ({ ret := ((batch evs).length : Int), data := batch evs } :: rs) s
      = run w rs
          (forEvents w { s with ibuf := batch evs ++ s.ibuf.drop (batch evs).length }
            ((seen 0 evs (s.ibuf.drop (batch evs).length)).map Prod.snd)) := by
  have hwalk := walk_batch evs [] (s.ibuf.drop (batch evs).length) (batch evs).length
    hwf (Nat.le_refl _)
  simp only [List.nil_append, List.length_nil, Nat.zero_add] at hwalk
  have hpos : 0 < (batch evs).length := by
    cases evs with
    | nil => exact absurd rfl hne
    | cons e es =>
      simp [batch, bytes_length, sizeof_ev]
  refine ⟨hwalk, seen_length _ _ _, ?_, ?_⟩
  · rw [forLoop_eq_forEvents w _ _ _ _ (by simp)]
    simp only [hwalk]
  · rw [run_cons_pos w _ rs s (by simpa using hpos)]
    simp only [store_batch, Int.toNat_ofNat, hwalk]

/-- Witness of C10: a batch of two events, the first one skipped. -/
theorem c10_decoding_loop_witness :
    walk (batch evsIgnoredThenWrite).length
        (batch evsIgnoredThenWrite ++ stDirSlash.ibuf.drop (batch evsIgnoredThenWrite).length)
        ((batch evsIgnoredThenWrite).length : Int) 0
      = seen 0 evsIgnoredThenWrite (stDirSlash.ibuf.drop (batch evsIgnoredThenWrite).length)
    ∧ (seen 0 evsIgnoredThenWrite
        (stDirSlash.ibuf.drop (batch evsIgnoredThenWrite).length)).length
      = evsIgnoredThenWrite.length
    ∧ forLoop wEmpty (batch evsIgnoredThenWrite).length
        { stDirSlash with
          ibuf := batch evsIgnoredThenWrite
            ++ stDirSlash.ibuf.drop (batch evsIgnoredThenWrite).length }
        ((batch evsIgnoredThenWrite).length : Int) 0
      = some (forEvents wEmpty
          { stDirSlash with
            ibuf := batch evsIgnoredThenWrite
              ++ stDirSlash.ibuf.drop (batch evsIgnoredThenWrite).length }
          ((seen 0 evsIgnoredThenWrite
            (stDirSlash.ibuf.drop (batch evsIgnoredThenWrite).length)).map Prod.snd))
    ∧ run wEmpty ({ ret := ((batch evsIgnoredThenWrite).length : Int),
                    data := batch evsIgnoredThenWrite } :: []) stDirSlash
      = run wEmpty []
          (forEvents wEmpty
            { stDirSlash with
              ibuf := batch evsIgnoredThenWrite
                ++ stDirSlash.ibuf.drop (batch evsIgnoredThenWrite).length }
            ((seen 0 evsIgnoredThenWrite
              (stDirSlash.ibuf.drop (batch evsIgnoredThenWrite).length)).map Prod.snd)) :=
  c10_decoding_loop wEmpty stDirSlash evsIgnoredThenWrite [] (by decide) (by decide)

/-! ## The reverse lookup during `run` -/

theorem forEvents_frame (w : World) (s : State) (evs : List inotify_event) :
    (forEvents w s evs).root = s.root ∧ (forEvents w s evs).wds = s.wds
    ∧ (forEvents w s evs).dflag = s.dflag ∧ (forEvents w s evs).pflag = s.pflag
    ∧ (forEvents w s evs).input_delim = s.input_delim
    ∧ (forEvents w s evs).ibuf = s.ibuf
    ∧ (forEvents w s evs).stderr = s.stderr := by
  induction evs generalizing s with
  | nil => simp [forEvents]
  | cons ev evs ih =>
    have hf := body_frame w s ev
    unfold forEvents
    rcases hb : body w s ev with ⟨s1, c⟩
    rw [hb] at hf
    cases c with
    | brk => exact hf
    | cont =>
      obtain ⟨h1, h2, h3, h4, h5, h6, h7⟩ := ih s1
      obtain ⟨g1, g2, g3, g4, g5, g6, g7⟩ := hf
      exact ⟨h1.trans g1, h2.trans g2, h3.trans g3, h4.trans g4, h5.trans g5,
        h6.trans g6, h7.trans g7⟩

/-- The inotify `run` never runs out of passes, and it leaves the Watch Set and
the reverse lookup as they were. -/
theorem run_total (w : World) (reads : List ReadResult) (s : State) :
    ∃ o, run w reads s = some o ∧ o.state.wds = s.wds ∧ o.state.root = s.root := by
  induction reads generalizing s with
  | nil => exact ⟨Outcome.blocked s, rfl, rfl, rfl⟩
  | cons r rs ih =>
    by_cases h : r.ret ≤ 0
    · rw [run_cons_nonpos w r rs s h]
      exact ⟨_, rfl, rfl, rfl⟩
    · rw [run_cons_pos w r rs s (by omega)]
      obtain ⟨o, ho, hw, hr⟩ := ih (forEvents w { s with ibuf := store s.ibuf r }
        ((walk r.ret.toNat (store s.ibuf r) r.ret 0).map Prod.snd))
      have hf := forEvents_frame w { s with ibuf := store s.ibuf r }
        ((walk r.ret.toNat (store s.ibuf r) r.ret 0).map Prod.snd)
      exact ⟨o, ho, hw.trans hf.2.1, hr.trans hf.1⟩

/-- C9, as stated, fails: after `rwc d`, `run` processes the `IN_IGNORED` event of
watch 1, and the reverse lookup still holds the entry of watch 1. -/
theorem c9_ignored_entry_stays :
    (evAt readIgnored.data 0).wd = 1
    ∧ (evAt readIgnored.data 0).mask &&& IN_IGNORED ≠ 0
    ∧ (run wEmpty [readIgnored] stDir).map
        (fun o => tfind wdorder ⟨1, []⟩ o.state.wds) = some (some ⟨1, str "d"⟩) := by
  decide

/-- C9 (amended): `run` leaves the reverse lookup exactly as it found it, over
every sequence of batches: an event flagged `IN_IGNORED` is skipped, without a
record and without a change of state, so an entry of its identifier stays;
`run` adds no entry and drops none. -/
theorem c9_reverse_lookup_kept (w : World) (reads : List ReadResult) (s : State) :
    (∃ o, run w reads s = some o ∧ o.state.wds = s.wds)
    ∧ (∀ ev : inotify_event, ev.mask &&& IN_IGNORED ≠ 0 → body w s ev = (s, Ctl.cont)) := by
  constructor
  · obtain ⟨o, ho, hw, _⟩ := run_total w reads s
    exact ⟨o, ho, hw⟩
  · intro ev hev
    unfold body resolve
    simp [hev]

/-- Witness of C9 (amended): the `IN_IGNORED` batch after `rwc d`. -/
theorem c9_reverse_lookup_kept_witness :
    (∃ o, run wEmpty [readIgnored] stDir = some o ∧ o.state.wds = stDir.wds)
    ∧ body wEmpty stDir (evAt readIgnored.data 0) = (stDir, Ctl.cont) :=
  ⟨(c9_reverse_lookup_kept wEmpty [readIgnored] stDir).1,
    (c9_reverse_lookup_kept wEmpty [readIgnored] stDir).2 (evAt readIgnored.data 0)
      (by decide)⟩

/-! ## Pipe mode -/

theorem resolve_congr (s t : State) (ev : inotify_event) (h : s.wds = t.wds) :
    resolve s ev = resolve t ev := by
  unfold resolve
  rw [h]

theorem matchedRecords_congr (s t : State) (evs : List inotify_event)
    (hr : s.root = t.root) (hw : s.wds = t.wds) (hd : s.input_delim = t.input_delim) :
    matchedRecords s evs = matchedRecords t evs := by
  unfold matchedRecords
  congr 1
  funext ev
  rw [resolve_congr s t ev hw]
  simp only [matched, record, hr, hd]

theorem pipeRecords_nil (w : World) (n0 : Nat) : pipeRecords w n0 [] = [] := rfl

theorem pipeRecords_cons_pos (w : World) (n0 : Nat) (r : CStr) (rs : List CStr)
    (h : 0 < w.FIONREAD n0) : pipeRecords w n0 (r :: rs) = [] := by
  have : ¬ w.FIONREAD n0 ≤ 0 := by omega
  simp [pipeRecords, List.enumFrom, List.takeWhile, this]

theorem pipeRecords_cons_nonpos (w : World) (n0 : Nat) (r : CStr) (rs : List CStr)
    (h : ¬ 0 < w.FIONREAD n0) :
    pipeRecords w n0 (r :: rs) = r :: pipeRecords w (n0 + 1) rs := by
  have : w.FIONREAD n0 ≤ 0 := by omega
  simp [pipeRecords, List.enumFrom, List.takeWhile, this]

theorem matchedRecords_cons (s : State) (ev : inotify_event) (evs : List inotify_event) :
    matchedRecords s (ev :: evs)
      = (match resolve s ev with
          | some (dir, name) =>
            if matched s dir name then [record s ev name] else []
          | none => []) ++ matchedRecords s evs := by
  unfold matchedRecords
  rw [List.filterMap_cons]
  cases resolve s ev with
  | none => rfl
  | some p =>
    obtain ⟨dir, name⟩ := p
    dsimp only
    split_ifs <;> rfl

/-- In pipe mode the loop over a batch writes the records pipe mode lets
through and takes the probes that go with them. -/
theorem forEvents_pipe (w : World) (s : State) (evs : List inotify_event)
    (hp : s.pflag ≠ 0) :
    (forEvents w s evs).stdout
        = s.stdout ++ pipeRecords w s.probes (matchedRecords s evs)
    ∧ (forEvents w s evs).probes
        = s.probes + probesUsed w s.probes (matchedRecords s evs) := by
  induction evs generalizing s with
  | nil => simp [forEvents, matchedRecords, pipeRecords, probesUsed]
  | cons ev evs ih =>
    rw [matchedRecords_cons]
    unfold forEvents body
    cases hres : resolve s ev with
    | none =>
      simpa using ih s hp
    | some p =>
      obtain ⟨dir, name⟩ := p
      dsimp only
      by_cases hm : matched s dir name = true
      · simp only [hm, if_true, hp, ne_eq, not_false_eq_true]
        by_cases hn : w.FIONREAD s.probes > 0
        · simp only [hn, if_true]
          simp [pipeRecords_cons_pos w s.probes _ _ hn, probesUsed]
        · simp only [hn, if_false]
          have hcongr := matchedRecords_congr
            { s with probes := s.probes + 1,
                     stdout := s.stdout ++ [record { s with probes := s.probes + 1 } ev name] }
            s evs rfl rfl rfl
          obtain ⟨h1, h2⟩ := ih
            { s with probes := s.probes + 1,
                     stdout := s.stdout ++ [record { s with probes := s.probes + 1 } ev name] }
            hp
          rw [hcongr] at h1 h2
          rw [h1, h2]
          simp only [List.singleton_append]
          rw [pipeRecords_cons_nonpos w s.probes _ _ hn]
          constructor
          · simp [record_probes]
          · simp only [probesUsed, List.length_cons]
            rw [pipeRecords_cons_nonpos w s.probes _ _ hn]
            simp only [List.length_cons]
            omega
      · simp only [hm, Bool.false_eq_true, if_false, List.nil_append]
        exact ih s hp

/-! ## The fetch of the next batch -/

/-- The inotify `run` ends the process with status 1 and a diagnostic, writing
nothing, when `read` returns zero or less. -/
theorem run_read_failure (w : World) (r : ReadResult) (rs : List ReadResult) (s : State)
    (h : r.ret ≤ 0) :
    ∃ s1, run w (r :: rs) s = some (Outcome.exited 1 s1)
      ∧ s1.stdout = s.stdout ∧ s1.stderr = s.stderr ++ [Diag.read_error] := by
  rw [run_cons_nonpos w r rs s h]
  exact ⟨_, rfl, rfl, rfl⟩

/-- C8, at the failing input: in the kqueue variant a `kevent` that returns -1
(or 0) is followed by the next `kevent`, with no diagnostic and no exit: after
`rwc a`, the results -1, 0, and then one event give the record of that event,
an empty stderr, and a process that has not exited. The inotify variant exits
with status 1 and a diagnostic on the same result. -/
theorem c8_kqueue_fetch_error_refetches :
    Kqueue.run wEmpty
        [{ ret := -1, eventlist := [] }, { ret := 0, eventlist := [] },
         { ret := 1, eventlist := [kevA] }] kstA
      = Outcome.blocked { kstA with stdout := [str "a\n"] }
    ∧ kstA.stderr = []
    ∧ run wEmpty [{ ret := -1, data := [] }, readDeleteSelf] stDir
      = some (Outcome.exited 1 { stDir with stderr := [Diag.read_error] }) := by
  decide

/-! ## Pipe mode, both variants -/

theorem kq_forLoop_pipe (w : World) (s : Kqueue.State) (evs : List Kqueue.kevent)
    (hp : s.pflag ≠ 0) (herr : ∀ ev ∈ evs, ev.flags &&& Kqueue.EV_ERROR = 0) :
    (Kqueue.forLoop w s evs).2 = none
    ∧ (Kqueue.forLoop w s evs).1.stdout
        = s.stdout ++ pipeRecords w s.probes (evs.map (Kqueue.record s))
    ∧ (Kqueue.forLoop w s evs).1.probes
        = s.probes + probesUsed w s.probes (evs.map (Kqueue.record s))
    ∧ (Kqueue.forLoop w s evs).1.pflag = s.pflag
    ∧ (Kqueue.forLoop w s evs).1.input_delim = s.input_delim
    ∧ (Kqueue.forLoop w s evs).1.root = s.root := by
  induction evs generalizing s with
  | nil => simp [Kqueue.forLoop, pipeRecords, probesUsed]
  | cons ev evs ih =>
    have he : ev.flags &&& Kqueue.EV_ERROR = 0 := herr ev (List.mem_cons_self _ _)
    have herr2 : ∀ x ∈ evs, x.flags &&& Kqueue.EV_ERROR = 0 :=
      fun x hx => herr x (List.mem_cons_of_mem _ hx)
    unfold Kqueue.forLoop Kqueue.body
    simp only [he, ne_eq, not_true_eq_false, if_false, hp, not_false_eq_true, if_true,
      List.map_cons]
    by_cases hn : w.FIONREAD s.probes > 0
    · simp only [hn, if_true]
      simp [pipeRecords_cons_pos w s.probes _ _ hn, probesUsed]
    · simp only [hn, if_false]
      obtain ⟨h1, h2, h3, h4, h5, h6⟩ := ih
        { s with probes := s.probes + 1,
                 stdout := s.stdout
                   ++ [Kqueue.record { s with probes := s.probes + 1 } ev] }
        hp herr2
      have hrec : ∀ x, Kqueue.record
          { s with probes := s.probes + 1,
                   stdout := s.stdout
                     ++ [Kqueue.record { s with probes := s.probes + 1 } ev] } x
          = Kqueue.record s x := fun _ => rfl
      have hmap : evs.map (Kqueue.record
          { s with probes := s.probes + 1,
                   stdout := s.stdout
                     ++ [Kqueue.record { s with probes := s.probes + 1 } ev] })
          = evs.map (Kqueue.record s) := by
        congr 1
      rw [hmap] at h2 h3
      refine ⟨h1, ?_, ?_, h4, h5, h6⟩
      · rw [h2, pipeRecords_cons_nonpos w s.probes _ _ hn]
        have : Kqueue.record { s with probes := s.probes + 1 } ev = Kqueue.record s ev := rfl
        simp [this]
      · rw [h3]
        simp only [probesUsed, List.length_cons]
        rw [pipeRecords_cons_nonpos w s.probes _ _ hn]
        simp only [List.length_cons]
        omega

theorem afterBatch_pipe (w : World) (s : State) (r : ReadResult) (hp : s.pflag ≠ 0) :
    (afterBatch w s r).stdout
        = s.stdout ++ pipeRecords w s.probes (matchedRecords s (batchEvents s.ibuf r))
    ∧ (afterBatch w s r).probes
        = s.probes + probesUsed w s.probes (matchedRecords s (batchEvents s.ibuf r)) := by
  have h := forEvents_pipe w { s with ibuf := store s.ibuf r } (batchEvents s.ibuf r) hp
  have hc := matchedRecords_congr { s with ibuf := store s.ibuf r } s
    (batchEvents s.ibuf r) rfl rfl rfl
  rw [hc] at h
  exact h

theorem afterBatch_frame (w : World) (s : State) (r : ReadResult) :
    (afterBatch w s r).root = s.root ∧ (afterBatch w s r).wds = s.wds
    ∧ (afterBatch w s r).pflag = s.pflag
    ∧ (afterBatch w s r).input_delim = s.input_delim := by
  have h := forEvents_frame w { s with ibuf := store s.ibuf r } (batchEvents s.ibuf r)
  exact ⟨h.1, h.2.1, h.2.2.2.1, h.2.2.2.2.1⟩

theorem run_cons_afterBatch (w : World) (r : ReadResult) (rs : List ReadResult)
    (s : State) (h : 0 < r.ret) :
    run w (r :: rs) s = run w rs (afterBatch w s r) :=
  run_cons_pos w r rs s h

/-- C7: in pipe mode, for every batch and every sequence of probe results, the
records `run` writes for the batch are those of the matched events before the
first matched event whose probe reports unread bytes, nothing for that event or
a later one of the batch; `run` then reads the next batch and goes through it
from its first event in the same way, with the probes that follow. The same
holds in the kqueue variant, where every event of a batch is written. -/
theorem c7_pipe_mode (w : World) (s : State) (r r2 : ReadResult) (rs : List ReadResult)
    (ks : Kqueue.State) (f : Kqueue.Fetch) (fs : List Kqueue.Fetch)
    (hp : s.pflag ≠ 0) (hret : 0 < r.ret) (hret2 : 0 < r2.ret)
    (hkp : ks.pflag ≠ 0)
    (hkerr : ∀ ev ∈ f.eventlist.take f.ret.toNat, ev.flags &&& Kqueue.EV_ERROR = 0) :
    (afterBatch w s r).stdout
        = s.stdout ++ pipeRecords w s.probes (matchedRecords s (batchEvents s.ibuf r))
    ∧ (afterBatch w s r).probes
        = s.probes + probesUsed w s.probes (matchedRecords s (batchEvents s.ibuf r))
    ∧ run w (r :: r2 :: rs) s = run w rs (afterBatch w (afterBatch w s r) r2)
    ∧ (afterBatch w (afterBatch w s r) r2).stdout
        = (afterBatch w s r).stdout
          ++ pipeRecords w (afterBatch w s r).probes
              (matchedRecords s (batchEvents (afterBatch w s r).ibuf r2))
    ∧ Kqueue.run w (f :: fs) ks
        = Kqueue.run w fs (Kqueue.forLoop w ks (f.eventlist.take f.ret.toNat)).1
    ∧ (Kqueue.forLoop w ks (f.eventlist.take f.ret.toNat)).1.stdout
        = ks.stdout ++ pipeRecords w ks.probes
            ((f.eventlist.take f.ret.toNat).map (Kqueue.record ks))
    ∧ (Kqueue.forLoop w ks (f.eventlist.take f.ret.toNat)).1.probes
        = ks.probes + probesUsed w ks.probes
            ((f.eventlist.take f.ret.toNat).map (Kqueue.record ks))
    ∧ (Kqueue.forLoop w ks (f.eventlist.take f.ret.toNat)).1.pflag = ks.pflag := by
  obtain ⟨a1, a2⟩ := afterBatch_pipe w s r hp
  obtain ⟨f1, f2, f3, f4⟩ := afterBatch_frame w s r
  have hp2 : (afterBatch w s r).pflag ≠ 0 := by rw [f3]; exact hp
  obtain ⟨b1, _⟩ := afterBatch_pipe w (afterBatch w s r) r2 hp2
  rw [matchedRecords_congr (afterBatch w s r) s _ f1 f2 f4] at b1
  obtain ⟨k1, k2, k3, k4, _, _⟩ := kq_forLoop_pipe w ks _ hkp hkerr
  refine ⟨a1, a2, ?_, b1, ?_, k2, k3, k4⟩
  · rw [run_cons_afterBatch w r _ s hret, run_cons_afterBatch w r2 _ _ hret2]
  · show (match Kqueue.forLoop w ks (f.eventlist.take f.ret.toNat) with
        | (s1, some status) => Outcome.exited status s1
        | (s1, none) => Kqueue.run w fs s1) = _
    rcases hfl : Kqueue.forLoop w ks (f.eventlist.take f.ret.toNat) with ⟨s1, o⟩
    rw [hfl] at k1
    simp only at k1
    subst k1
    rfl

/-- Witness of C7: `rwc -p d`, two batches of three events each, the second
probe reporting unread bytes; and `rwc -p a` under kqueue. -/
theorem c7_pipe_mode_witness :
    (afterBatch wBusy stPipe readABC).stdout
        = stPipe.stdout
          ++ pipeRecords wBusy stPipe.probes
              (matchedRecords stPipe (batchEvents stPipe.ibuf readABC))
    ∧ (afterBatch wBusy stPipe readABC).probes
        = stPipe.probes
          + probesUsed wBusy stPipe.probes
              (matchedRecords stPipe (batchEvents stPipe.ibuf readABC))
    ∧ run wBusy (readABC :: readABC :: []) stPipe
        = run wBusy [] (afterBatch wBusy (afterBatch wBusy stPipe readABC) readABC)
    ∧ (afterBatch wBusy (afterBatch wBusy stPipe readABC) readABC).stdout
        = (afterBatch wBusy stPipe readABC).stdout
          ++ pipeRecords wBusy (afterBatch wBusy stPipe readABC).probes
              (matchedRecords stPipe
                (batchEvents (afterBatch wBusy stPipe readABC).ibuf readABC))
    ∧ Kqueue.run wBusy (fetchTwo :: []) kstPipe
        = Kqueue.run wBusy []
            (Kqueue.forLoop wBusy kstPipe
              (fetchTwo.eventlist.take fetchTwo.ret.toNat)).1
    ∧ (Kqueue.forLoop wBusy kstPipe (fetchTwo.eventlist.take fetchTwo.ret.toNat)).1.stdout
        = kstPipe.stdout ++ pipeRecords wBusy kstPipe.probes
            ((fetchTwo.eventlist.take fetchTwo.ret.toNat).map (Kqueue.record kstPipe))
    ∧ (Kqueue.forLoop wBusy kstPipe (fetchTwo.eventlist.take fetchTwo.ret.toNat)).1.probes
        = kstPipe.probes + probesUsed wBusy kstPipe.probes
            ((fetchTwo.eventlist.take fetchTwo.ret.toNat).map (Kqueue.record kstPipe))
    ∧ (Kqueue.forLoop wBusy kstPipe (fetchTwo.eventlist.take fetchTwo.ret.toNat)).1.pflag
        = kstPipe.pflag :=
  c7_pipe_mode wBusy stPipe readABC readABC [] kstPipe fetchTwo []
    (by decide) (by decide) (by decide) (by decide) (by decide)

/-- The run of the witness of C7, evaluated: of the first batch `d/a` is written
and `d/b`, `d/c` are dropped; of the second batch all three are written. -/
theorem pipe_mode_example :
    (run wBusy [readABC, readABC] stPipe).map (fun o => o.state.stdout)
      = some [str "d/a\n", str "d/a\n", str "d/b\n", str "d/c\n"] := by
  decide

/-! ## Idempotence of `add` -/

theorem tfind_tsearch_self {α : Type} (cmp : α → α → Int) (key : α) (t : List α)
    (hrefl : cmp key key = 0) : (tfind cmp key (tsearch cmp key t)).isSome = true := by
  unfold tsearch
  cases h : tfind cmp key t with
  | some y => simp [h]
  | none =>
    simp only [tfind, List.find?_append] at h ⊢
    simp [h, hrefl]

theorem tsearch_idem {α : Type} (cmp : α → α → Int) (key : α) (t : List α)
    (hrefl : cmp key key = 0) :
    tsearch cmp key (tsearch cmp key t) = tsearch cmp key t := by
  have h := tfind_tsearch_self cmp key t hrefl
  generalize tsearch cmp key t = u at h ⊢
  unfold tsearch
  cases hf : tfind cmp key u with
  | some y => rfl
  | none => simp [hf] at h

theorem order_self (p : CStr) : order p p = 0 := (strcmp_eq_zero_iff p p).mpr rfl

theorem wdorder_self (m : wdmap) : wdorder m m = 0 := (wdorder_eq_zero_iff m m).mpr rfl

theorem nodup_tsearch_order (p : CStr) (t : List CStr) (h : t.Nodup) :
    (tsearch order p t).Nodup := by
  unfold tsearch
  cases hf : tfind order p t with
  | some y => exact h
  | none =>
    have hp : p ∉ t := fun hm => by
      have := (tfind_order_isSome p t).mpr hm
      simp [hf] at this
    simp only
    rw [List.nodup_append]
    refine ⟨h, List.nodup_singleton p, ?_⟩
    intro a ha hb
    rw [List.mem_singleton] at hb
    exact hp (hb ▸ ha)

theorem nodup_tsearch_wdorder (key : wdmap) (t : List wdmap)
    (h : (t.map wdmap.wd).Nodup) : ((tsearch wdorder key t).map wdmap.wd).Nodup := by
  unfold tsearch
  cases hf : tfind wdorder key t with
  | some y => exact h
  | none =>
    rw [tfind_wdorder] at hf
    simp only [List.map_append, List.map_cons, List.map_nil]
    rw [List.nodup_append]
    refine ⟨h, List.nodup_singleton _, ?_⟩
    intro a ha hb
    rw [List.mem_singleton] at hb
    obtain ⟨m, hm, hma⟩ := List.mem_map.mp ha
    have := List.find?_eq_none.mp hf m hm
    simp [hma, hb] at this

theorem add_frame (k : Kernel) (s : State) (p : CStr) :
    (add k s p).pflag = s.pflag ∧ (add k s p).input_delim = s.input_delim
    ∧ (add k s p).stdout = s.stdout ∧ (add k s p).probes = s.probes := by
  unfold add
  dsimp only
  split_ifs <;> simp

theorem add_add_root (k : Kernel) (s : State) (p : CStr) :
    (add k (add k s p) p).root = (add k s p).root := by
  rw [add_root, add_root, tsearch_idem order p s.root (order_self p)]

theorem add_add_wds (k : Kernel) (s : State) (p : CStr) :
    (add k (add k s p) p).wds = (add k s p).wds := by
  rw [add_wds k (add k s p) p, add_dflag, add_wds k s p]
  split_ifs with h
  · rfl
  · rw [tsearch_idem wdorder _ s.wds (wdorder_self _)]

theorem add_treeInv (k : Kernel) (s : State) (p : CStr) (h : TreeInv s) :
    TreeInv (add k s p) := by
  obtain ⟨h1, h2⟩ := h
  refine ⟨?_, ?_⟩
  · rw [add_root]
    exact nodup_tsearch_order p s.root h1
  · rw [add_wds]
    split_ifs
    · exact h2
    · exact nodup_tsearch_wdorder _ _ h2

theorem body_stdout_congr (w : World) (s t : State) (ev : inotify_event)
    (hr : s.root = t.root) (hw : s.wds = t.wds) (hp : s.pflag = t.pflag)
    (hd : s.input_delim = t.input_delim) (ho : s.stdout = t.stdout)
    (hn : s.probes = t.probes) :
    (body w s ev).1.stdout = (body w t ev).1.stdout := by
  unfold body
  rw [resolve_congr s t ev hw]
  cases resolve t ev with
  | none => exact ho
  | some q =>
    obtain ⟨dir, name⟩ := q
    simp only [matched, record, hr, hp, hd, ho, hn]
    split_ifs <;> simp [ho]

theorem body_stdout_length (w : World) (s : State) (ev : inotify_event) :
    (body w s ev).1.stdout.length ≤ s.stdout.length + 1 := by
  unfold body
  cases resolve s ev with
  | none => simp
  | some q =>
    obtain ⟨dir, name⟩ := q
    dsimp only
    split_ifs <;> simp

theorem kq_add_add (k : Kqueue.Kernel) (s : Kqueue.State) (p : CStr) :
    (Kqueue.add k (Kqueue.add k s p) p).root = (Kqueue.add k s p).root
    ∧ (Kqueue.add k (Kqueue.add k s p) p).kq = (Kqueue.add k s p).kq := by
  by_cases hin : (tfind order p s.root).isSome = true
  · have h1 : Kqueue.add k s p = s := by simp [Kqueue.add, hin]
    rw [h1, h1]
    exact ⟨rfl, rfl⟩
  · by_cases hop : k.open_file p < 0
    · have h1 : Kqueue.add k s p
          = { s with stderr := s.stderr ++ [Diag.open_failed p] } := by
        simp [Kqueue.add, hin, hop]
      rw [h1]
      simp [Kqueue.add, hin, hop]
    · have hroot : (Kqueue.add k s p).root = tsearch order p s.root := by
        unfold Kqueue.add
        rw [if_neg hin]
        dsimp only
        rw [if_neg hop]
        split_ifs <;> rfl
      have h2 : (tfind order p (Kqueue.add k s p).root).isSome = true := by
        rw [hroot]
        exact tfind_tsearch_self order p s.root (order_self p)
      have h3 : Kqueue.add k (Kqueue.add k s p) p = Kqueue.add k s p := by
        generalize Kqueue.add k s p = u at h2 ⊢
        simp [Kqueue.add, h2]
      rw [h3]
      exact ⟨rfl, rfl⟩

theorem kq_add_count (k : Kqueue.Kernel) (s : Kqueue.State) (p : CStr)
    (h : s.root.Nodup) :
    (Kqueue.add k s p).root.Nodup
    ∧ (p ∈ (Kqueue.add k s p).root ∨ k.open_file p < 0) := by
  by_cases hin : (tfind order p s.root).isSome = true
  · have h1 : Kqueue.add k s p = s := by simp [Kqueue.add, hin]
    rw [h1]
    exact ⟨h, Or.inl ((tfind_order_isSome p s.root).mp hin)⟩
  · by_cases hop : k.open_file p < 0
    · have h1 : (Kqueue.add k s p).root = s.root := by
        simp [Kqueue.add, hin, hop]
      rw [h1]
      exact ⟨h, Or.inr hop⟩
    · have hroot : (Kqueue.add k s p).root = tsearch order p s.root := by
        unfold Kqueue.add
        rw [if_neg hin]
        dsimp only
        rw [if_neg hop]
        split_ifs <;> rfl
      rw [hroot]
      exact ⟨nodup_tsearch_order p s.root h,
        Or.inl ((mem_tsearch_order p p s.root).mpr (Or.inr rfl))⟩

theorem occurrences_of_not_mem (p : CStr) (l : List CStr) (h : p ∉ l) :
    occurrences p l = 0 := by
  unfold occurrences
  rw [List.countP_eq_zero]
  intro x hx
  simp only [decide_eq_true_eq]
  intro hxp
  exact h (hxp ▸ hx)

theorem occurrences_of_mem (p : CStr) (l : List CStr) (hn : l.Nodup) (h : p ∈ l) :
    occurrences p l = 1 := by
  induction l with
  | nil => cases h
  | cons a l ih =>
    obtain ⟨ha, hl⟩ := List.nodup_cons.mp hn
    by_cases hap : a = p
    · have h0 := occurrences_of_not_mem p l (hap ▸ ha)
      unfold occurrences at h0 ⊢
      rw [List.countP_cons, h0]
      simp [hap]
    · have hm : p ∈ l := by
        rcases List.mem_cons.mp h with h1 | h1
        · exact absurd h1.symm hap
        · exact h1
      have h1 := ih hl hm
      unfold occurrences at h1 ⊢
      rw [List.countP_cons, h1]
      simp [hap]

theorem occurrences_le_one (p : CStr) (l : List CStr) (hn : l.Nodup) :
    occurrences p l ≤ 1 := by
  by_cases h : p ∈ l
  · rw [occurrences_of_mem p l hn h]
  · rw [occurrences_of_not_mem p l h]
    omega

/-- C4: `add` is idempotent. In the inotify variant `add p` after `add p` leaves
the Watch Set and the reverse lookup as the first `add p` left them, `p` is in
the Watch Set once, no identifier is in the reverse lookup twice, and an event
afterwards is written as after a single `add p`, as one record at most. In the
kqueue variant the second `add p` leaves the Watch Set and the registrations of
the kernel queue as they were, and `p` is in the Watch Set once, unless it
could not be opened. -/
theorem c4_add_idempotent (k : Kernel) (kk : Kqueue.Kernel) (w : World) (s : State)
    (ks : Kqueue.State) (p : CStr) (ev : inotify_event)
    (hinv : TreeInv s) (hkinv : ks.root.Nodup) :
    (add k (add k s p) p).root = (add k s p).root
    ∧ (add k (add k s p) p).wds = (add k s p).wds
    ∧ occurrences p (add k (add k s p) p).root = 1
    ∧ ((add k (add k s p) p).wds.map wdmap.wd).Nodup
    ∧ (body w (add k (add k s p) p) ev).1.stdout = (body w (add k s p) ev).1.stdout
    ∧ (body w (add k (add k s p) p) ev).1.stdout.length ≤ s.stdout.length + 1
    ∧ (Kqueue.add kk (Kqueue.add kk ks p) p).root = (Kqueue.add kk ks p).root
    ∧ (Kqueue.add kk (Kqueue.add kk ks p) p).kq = (Kqueue.add kk ks p).kq
    ∧ occurrences p (Kqueue.add kk (Kqueue.add kk ks p) p).root ≤ 1
    ∧ (occurrences p (Kqueue.add kk (Kqueue.add kk ks p) p).root = 1 ∨ kk.open_file p < 0) := by
  have hr := add_add_root k s p
  have hw := add_add_wds k s p
  have hinv2 := add_treeInv k _ p (add_treeInv k s p hinv)
  obtain ⟨g1, g2, g3, g4⟩ := add_frame k (add k s p) p
  obtain ⟨e1, e2, e3, e4⟩ := add_frame k s p
  have hmem : p ∈ (add k (add k s p) p).root :=
    (mem_root_add k _ p p).mpr (Or.inr rfl)
  obtain ⟨q1, q2⟩ := kq_add_add kk ks p
  obtain ⟨n1, n2⟩ := kq_add_count kk ks p hkinv
  refine ⟨hr, hw, occurrences_of_mem p _ hinv2.1 hmem, hinv2.2,
    body_stdout_congr w _ _ ev hr hw g1 g2 g3 g4, ?_, q1, q2, ?_, ?_⟩
  · have := body_stdout_length w (add k (add k s p) p) ev
    rw [g3, e3] at this
    exact this
  · rw [q1]
    exact occurrences_le_one p _ n1
  · rw [q1]
    rcases n2 with h | h
    · exact Or.inl (occurrences_of_mem p _ n1 h)
    · exact Or.inr h

/-- Witness of C4: `rwc d/f d/f` (inotify) and `rwc a a` (kqueue), then the
event for `d/f`. -/
theorem c4_add_idempotent_witness :
    (add kFile (add kFile {} (str "d/f")) (str "d/f")).root
        = (add kFile {} (str "d/f")).root
    ∧ (add kFile (add kFile {} (str "d/f")) (str "d/f")).wds
        = (add kFile {} (str "d/f")).wds
    ∧ occurrences (str "d/f") (add kFile (add kFile {} (str "d/f")) (str "d/f")).root = 1
    ∧ ((add kFile (add kFile {} (str "d/f")) (str "d/f")).wds.map wdmap.wd).Nodup
    ∧ (body wEmpty (add kFile (add kFile {} (str "d/f")) (str "d/f"))
          (evWrite (str "f"))).1.stdout
        = (body wEmpty (add kFile {} (str "d/f")) (evWrite (str "f"))).1.stdout
    ∧ (body wEmpty (add kFile (add kFile {} (str "d/f")) (str "d/f"))
          (evWrite (str "f"))).1.stdout.length ≤ ({} : State).stdout.length + 1
    ∧ (Kqueue.add kOpen (Kqueue.add kOpen {} (str "d/f")) (str "d/f")).root
        = (Kqueue.add kOpen {} (str "d/f")).root
    ∧ (Kqueue.add kOpen (Kqueue.add kOpen {} (str "d/f")) (str "d/f")).kq
        = (Kqueue.add kOpen {} (str "d/f")).kq
    ∧ occurrences (str "d/f")
        (Kqueue.add kOpen (Kqueue.add kOpen {} (str "d/f")) (str "d/f")).root ≤ 1
    ∧ (occurrences (str "d/f")
        (Kqueue.add kOpen (Kqueue.add kOpen {} (str "d/f")) (str "d/f")).root = 1
      ∨ kOpen.open_file (str "d/f") < 0) :=
  c4_add_idempotent kFile kOpen wEmpty {} {} (str "d/f") (evWrite (str "f"))
    ⟨List.nodup_nil, List.nodup_nil⟩ List.nodup_nil

/-- The run of the witness of C4, evaluated: after `rwc d/f d/f` one event for
`d/f` gives one record. -/
theorem add_twice_example :
    (body wEmpty (addAll kFile {} [str "d/f", str "d/f"]) (evWrite (str "f"))).1.stdout
      = [str "d/f\n"] := by
  decide

end Rwc
